import Mathlib

/-!
Verification development for the hichew TAD-calling core
(`src/utils.py`, `src/api.py`).

The external segmentation oracles (lavaburst density scoring,
cooltools insulation boundary calling) are out of scope per the design
notes: functions that consume an oracle result take that result as an
explicit argument.  Machine floats are modelled by `ℚ` where the code
only does ring arithmetic and comparisons, and by `ℝ` where `np.log`
appears.  Python control flow that can raise and is caught (or crashes)
is modelled with `Option`.
-/

namespace Hichew

/-- Segmentation method tag: `armatus`/`modularity` are the density-score
methods, `insulation` the boundary-based one. -/
inductive Method where
  | armatus
  | modularity
  | insulation
deriving DecidableEq, Repr

/-- List filter on a decidable proposition, written with an explicit
`if` so proofs can discharge each test with `if_pos`/`if_neg`. -/
def filterP (p : α → Prop) [DecidablePred p] : List α → List α
  | [] => []
  | x :: xs => if p x then x :: filterP p xs else filterP p xs

theorem mem_filterP (p : α → Prop) [DecidablePred p] (l : List α) (x : α) :
    x ∈ filterP p l ↔ x ∈ l ∧ p x := by
  induction l with
  | nil => simp [filterP]
  | cons a as ih =>
    by_cases h : p a
    · simp only [filterP, if_pos h, List.mem_cons, ih]
      constructor
      · rintro (rfl | ⟨hx, hp⟩)
        · exact ⟨Or.inl rfl, h⟩
        · exact ⟨Or.inr hx, hp⟩
      · rintro ⟨rfl | hx, hp⟩
        · exact Or.inl rfl
        · exact Or.inr ⟨hx, hp⟩
    · simp only [filterP, if_neg h, List.mem_cons, ih]
      constructor
      · rintro ⟨hx, hp⟩; exact ⟨Or.inr hx, hp⟩
      · rintro ⟨rfl | hx, hp⟩
        · exact absurd hp h
        · exact ⟨hx, hp⟩

theorem filterP_congr {p q : α → Prop} [DecidablePred p] [DecidablePred q]
    (l : List α) (h : ∀ x ∈ l, p x ↔ q x) : filterP p l = filterP q l := by
  induction l with
  | nil => rfl
  | cons a as ih =>
    have ha := h a (List.mem_cons_self a as)
    by_cases hp : p a
    · rw [filterP, filterP, if_pos hp, if_pos (ha.mp hp),
        ih fun x hx => h x (List.mem_cons_of_mem a hx)]
    · rw [filterP, filterP, if_neg hp, if_neg (fun hq => hp (ha.mpr hq)),
        ih fun x hx => h x (List.mem_cons_of_mem a hx)]

/-- Python `int()` truncation toward zero, on a rational. -/
def pyTruncQ (q : ℚ) : ℤ := if 0 ≤ q then ⌊q⌋ else ⌈q⌉

/-- Python `int()` truncation toward zero, on a real (used where the
code mixes float division with `int()`). -/
noncomputable def pyTruncR (x : ℝ) : ℤ := if 0 ≤ x then ⌊x⌋ else ⌈x⌉

/-- Python slice `l[:i]`, including the negative-index convention. -/
def pySliceTo (l : List α) (i : ℤ) : List α :=
  if 0 ≤ i then l.take i.toNat else l.take (l.length - (-i).toNat)

/-- Python indexing `l[i]` with the negative-index convention;
`none` models an `IndexError`. -/
def pyGet (l : List α) (i : ℤ) : Option α :=
  if 0 ≤ i then l[i.toNat]?
  else if (-i).toNat ≤ l.length then l[l.length - (-i).toNat]? else none

/-- `np.argmin` on a nonempty list: index of the first minimum.
`argminFirstAux i bi bv l` scans `l` whose head has index `i`, with
current best value `bv` at index `bi`. -/
def argminFirstAux [LinearOrder α] (i bi : ℕ) (bv : α) : List α → ℕ
  | [] => bi
  | x :: xs => if x < bv then argminFirstAux (i + 1) i x xs else argminFirstAux (i + 1) bi bv xs

/-- `np.argmin` on a list (0 on the empty list; callers guard emptiness
the way the Python code does, via the surrounding try/except). -/
def argminFirst [LinearOrder α] : List α → ℕ
  | [] => 0
  | x :: xs => argminFirstAux 1 0 x xs

/-! ## NoiseFilter (`whether_tad_noisy`, `calc_noisy_metric`) -/

/-- Expanded begin coordinate of a noisy stripe: the insulation method
widens each stripe by `resolution * k` on the left (utils.py 511-516). -/
def stripeBgn (f : ℤ × ℤ) (method : Method) (resolution k : ℤ) : ℤ :=
  if method = Method.insulation then f.1 - resolution * k else f.1

/-- Expanded end coordinate of a noisy stripe (utils.py 511-516). -/
def stripeEnd (f : ℤ × ℤ) (method : Method) (resolution k : ℤ) : ℤ :=
  if method = Method.insulation then f.2 + resolution * k else f.2

/-- The four hard-reject tests of utils.py 517-524 against one
(expanded) stripe `(b, e)` for the TAD `x = (x0, x1)`. -/
def noisyAgainst (x : ℤ × ℤ) (b e : ℤ) : Prop :=
  (x.1 ≤ e ∧ b ≤ x.1) ∨ (x.2 ≤ e ∧ b ≤ x.2) ∨
  (x.2 ≤ e ∧ b ≤ x.1) ∨ (x.1 ≤ b ∧ e ≤ x.2 ∧ e - b ≠ 0)

instance (x : ℤ × ℤ) (b e : ℤ) : Decidable (noisyAgainst x b e) := by
  unfold noisyAgainst; infer_instance

/-- `whether_tad_noisy` (utils.py 502-525): the TAD is 100% noisy when
some stripe, expanded for the insulation method, triggers one of the
four tests. -/
def whether_tad_noisy (x : ℤ × ℤ) (filters : List (ℤ × ℤ)) (method : Method)
    (resolution k : ℤ) : Prop :=
  ∃ f ∈ filters, noisyAgainst x (stripeBgn f method resolution k) (stripeEnd f method resolution k)

instance (x : ℤ × ℤ) (filters : List (ℤ × ℤ)) (method : Method) (resolution k : ℤ) :
    Decidable (whether_tad_noisy x filters method resolution k) := by
  unfold whether_tad_noisy; infer_instance

/-- The `left_stripe` lookup of utils.py 544-547: among stripe ends at
or before the TAD start pick the first argmin of the gap, index the full
end column with it, and take the first stripe with that end.  `none`
models the caught exception (empty candidate set). -/
def leftStripe (x0 : ℤ) (filters : List (ℤ × ℤ)) : Option (ℤ × ℤ) :=
  if (filterP (fun e => 0 ≤ x0 - e) (filters.map Prod.snd)).isEmpty then none
  else
    (filterP (fun f => f.2 =
      (filters.map Prod.snd).getD
        (argminFirst ((filterP (fun e => 0 ≤ x0 - e) (filters.map Prod.snd)).map
          (fun e => x0 - e))) 0) filters).head?

/-- The `right_stripe` lookup of utils.py 548-552: first stripe whose
start is at or after the TAD end; `none` models the caught exception. -/
def rightStripe (x1 : ℤ) (filters : List (ℤ × ℤ)) : Option (ℤ × ℤ) :=
  match (filterP (fun s => 0 ≤ s - x1) (filters.map Prod.fst)).head? with
  | none => none
  | some sstar => (filterP (fun f => f.1 = sstar) filters).head?

/-- One side of the density metric (utils.py 553-566); the inner
insulation test is dead code in the source (it sits under
`method != insulation`) but is kept for fidelity. -/
noncomputable def sideMetric (gap len : ℤ) (method : Method) : ℝ :=
  if method = Method.insulation then (Real.log (gap : ℝ)) ^ 2
  else (Real.log (gap : ℝ)) ^ 2 * Real.log (len : ℝ)

/-- `calc_noisy_metric` (utils.py 528-569): -1 for a fully noisy TAD,
a continuous min-of-two-sides metric for density methods, constant 1
for a clean insulation TAD. -/
noncomputable def calc_noisy_metric (x : ℤ × ℤ) (filters : List (ℤ × ℤ)) (method : Method)
    (resolution k : ℤ) : ℝ :=
  if whether_tad_noisy x filters method resolution k then -1
  else if method ≠ Method.insulation then
    let lm : ℝ := match leftStripe x.1 filters with
      | some f => sideMetric (x.1 - f.2) (x.2 - x.1) method
      | none => 1e10
    let rm : ℝ := match rightStripe x.2 filters with
      | some f => sideMetric (f.1 - x.2) (x.2 - x.1) method
      | none => 1e10
    min lm rm
  else 1

/-! ## SegmentationGenerator (`produce_tads_segmentation`,
`produce_boundaries_segmentation` filtering stage)

The lavaburst call (`model.optimal_segmentation()`) is the external
oracle; its result enters as the `segments` argument. -/

/-- Size-bounds mask of utils.py 160-162: `v > mis & isfinite(v) & v < mts`
(the finiteness test is vacuous over `ℤ`). -/
def sizeFilter (mis mts : ℤ) (segments : List (ℤ × ℤ)) : List (ℤ × ℤ) :=
  filterP (fun s => mis < s.2 - s.1 ∧ s.2 - s.1 < mts) segments

/-- Noise metrics of the size-filtered candidates
(utils.py 164, with `resolution=0, k=0`). -/
noncomputable def tadMetrics (filters : List (ℤ × ℤ)) (method : Method)
    (segments : List (ℤ × ℤ)) : List ℝ :=
  segments.map (fun s => calc_noisy_metric s filters method 0 0)

/-- `hist_arr` of utils.py 165-166: sorted metrics, strictly positive
entries kept. -/
noncomputable def tadsHist (metrics : List ℝ) : List ℝ :=
  filterP (fun m => (0 : ℝ) < m) (metrics.insertionSort (· ≤ ·))

/-- `np.sum(filters[ch][:, 1] - filters[ch][:, 0] + 1)` (utils.py 168). -/
def noiseWidthSum (filters : List (ℤ × ℤ)) : ℤ :=
  (filters.map (fun f => f.2 - f.1 + 1)).sum

/-- `int(len(hist_arr) * noise_freq)` (utils.py 171). -/
noncomputable def threshIdx (histLen : ℕ) (filters : List (ℤ × ℤ)) (mtxN : ℤ) : ℤ :=
  pyTruncR ((histLen : ℝ) * ((noiseWidthSum filters : ℝ) / (mtxN : ℝ)))

/-- The adaptive noise-frequency threshold of utils.py 165-171:
average of the two sorted positive metrics around index
`int(len * noise_freq)`.  `none` models any exception caught by the
surrounding `try` (empty slice or index out of range), in which case
the caller returns the candidates unfiltered. -/
noncomputable def tadsThresh (metrics : List ℝ) (filters : List (ℤ × ℤ)) (mtxN : ℤ) :
    Option ℝ :=
  match (pySliceTo (tadsHist metrics)
      (threshIdx (tadsHist metrics).length filters mtxN)).getLast?,
    pyGet (tadsHist metrics) (threshIdx (tadsHist metrics).length filters mtxN) with
  | some a, some b => some ((a + b) / 2)
  | _, _ => none

/-- The segment list `produce_tads_segmentation` returns for a density
method: size-bounds filter, then the adaptive threshold filter, falling
back to the unfiltered candidates when the threshold computation raises
(utils.py 159-178). -/
noncomputable def ptsBody (segments filters : List (ℤ × ℤ)) (mtxN : ℤ)
    (method : Method) (mis mts : ℤ) : List (ℤ × ℤ) :=
  match tadsThresh (tadMetrics filters method (sizeFilter mis mts segments)) filters mtxN with
  | some t =>
    (filterP (fun p => t < p.2)
      ((sizeFilter mis mts segments).zip
        (tadMetrics filters method (sizeFilter mis mts segments)))).map Prod.fst
  | none => sizeFilter mis mts segments

/-- `produce_tads_segmentation` (utils.py 122-178) after the oracle
call; `none` models the bare `return` for an unsupported method
(utils.py 150-151). -/
noncomputable def produce_tads_segmentation (segments filters : List (ℤ × ℤ)) (mtxN : ℤ)
    (method : Method) (mis mts : ℤ) : Option (List (ℤ × ℤ)) :=
  match method with
  | Method.insulation => none
  | _ => some (ptsBody segments filters mtxN method mis mts)

/-- The live filtering stage of `produce_boundaries_segmentation`
(utils.py 96-119): threshold fixed at 0, the commented-out adaptive
block being disabled there.  The cooltools boundary call is the oracle;
its coordinates enter as `coords`. -/
noncomputable def produce_boundaries_filter (coords filters : List (ℤ × ℤ))
    (method : Method) (resolution k : ℤ) : List (ℤ × ℤ) :=
  filterP (fun b => (0 : ℝ) < calc_noisy_metric b filters method resolution k) coords

/-! ## NoiseMaskBuilder (`get_noisy_stripes`, utils.py 466-499)

The percentile/log preprocessing of lines 456-464 produces the
transformed matrix; the claims under test concern lines 466-499, so the
transformed matrix is the input here. -/

/-- Indices of zero row-sum bins (`np.where(np.sum(mtx, axis=1) == 0)`). -/
def badIdx (mtx : List (List ℚ)) : List ℤ :=
  (filterP (fun i => (mtx.getD i []).sum = 0) (List.range mtx.length)).map Int.ofNat

/-- The grouping loop of utils.py 469-478: `closed` are the finished
runs, `cur` the start of the open run, `vprev` its last seen member. -/
def runsAux (closed : List (ℤ × ℤ)) (cur vprev : ℤ) : List ℤ → List (ℤ × ℤ)
  | [] => closed ++ [(cur, vprev)]
  | e :: es =>
    if e - vprev = 1 then runsAux closed cur e es
    else runsAux (closed ++ [(cur, vprev)]) e e es

/-- `v_tmp` of utils.py 468-479.  The Python loop runs over
`range(1, len(v) - 1)`, so the final bad bin is never consumed; `none`
models the `IndexError` of `v[0]` on an empty bad-bin set. -/
def buildRuns : List ℤ → Option (List (ℤ × ℤ))
  | [] => none
  | v0 :: rest => some (runsAux [] v0 v0 rest.dropLast)

/-- Maximal runs of consecutive indices, as the spec describes them:
the same grouping applied to the whole index list. -/
def specRuns : List ℤ → List (ℤ × ℤ)
  | [] => []
  | v0 :: rest => runsAux [] v0 v0 rest

/-- One slice assignment `good[lo:hi] = False` on a boolean vector. -/
def setRangeFalse : List Bool → ℕ → ℕ → List Bool
  | [], _, _ => []
  | b :: bs, lo, hi =>
    (if lo = 0 ∧ 0 < hi then false else b) :: setRangeFalse bs (lo - 1) (hi - 1)

/-- Lower slice index of `good[...] = False` for one stripe
(utils.py 494-497): `int(stripe[0]/resolution)` for insulation,
`stripe[0]` otherwise. -/
def stripeLo (method : Method) (res : ℤ) (st : ℤ × ℤ) : ℕ :=
  if method = Method.insulation then (pyTruncQ ((st.1 : ℚ) / (res : ℚ))).toNat
  else st.1.toNat

/-- Upper slice index (exclusive) of `good[...] = False` for one stripe
(utils.py 494-497): `int(stripe[1]/resolution)` for insulation,
`stripe[1] + 1` otherwise. -/
def stripeHi (method : Method) (res : ℤ) (st : ℤ × ℤ) : ℕ :=
  if method = Method.insulation then (pyTruncQ ((st.2 : ℚ) / (res : ℚ))).toNat
  else (st.2 + 1).toNat

/-- The good-bin mask construction of utils.py 492-497. -/
def buildMask (n : ℕ) (stripes : List (ℤ × ℤ)) (method : Method) (res : ℤ) : List Bool :=
  stripes.foldl (fun good st =>
    setRangeFalse good (stripeLo method res st) (stripeHi method res st))
    (List.replicate n true)

/-- The `filters[ch]` stripes of utils.py 481-490: width filter
`end - start >= 0`, then genomic-coordinate conversion for the
insulation method. -/
def gnsStripes (runs : List (ℤ × ℤ)) (method : Method) (res : ℤ) : List (ℤ × ℤ) :=
  let filt := filterP (fun p => 0 ≤ p.2 - p.1) runs
  if method = Method.insulation
  then filt.map (fun p => (p.1 * res, p.2 * res + res)) else filt

/-- `get_noisy_stripes` (utils.py 466-499) on the transformed matrix:
bad-bin runs, width filter, genomic-coordinate conversion for the
insulation method, and the good-bin mask. -/
def get_noisy_stripes (mtx : List (List ℚ)) (method : Method) (res : ℤ) :
    Option (List (ℤ × ℤ) × List Bool) :=
  match buildRuns (badIdx mtx) with
  | none => none
  | some runs =>
    some (gnsStripes runs method res,
      buildMask mtx.length (gnsStripes runs method res) method res)

/-! ## Per-window statistics (`calc_mean_tad_size`, utils.py 13-71) -/

/-- One row of the boundaries dataframe: genomic start/end plus the
per-window insulation score and boundary strength columns. -/
structure BRow where
  bgn : ℚ
  stop : ℚ
  ins : ℚ
  strength : ℚ
deriving DecidableEq, Repr

/-- A Python value as it appears in the returned tuple: scalars and
lists are the two shapes `calc_mean_tad_size` produces. -/
inductive PyVal where
  | scalar (q : ℚ)
  | qlist (l : List ℚ)
deriving DecidableEq, Repr

/-- Candidate TAD rows: consecutive boundary pairs (utils.py 26-38). -/
def tadRows (bs : List BRow) : List (BRow × BRow) := bs.zip bs.tail

/-- TAD length in resolution units (utils.py 38). -/
def rowLength (res : ℚ) (p : BRow × BRow) : ℚ := (p.2.bgn - p.1.stop) / res

/-- `is_normal` (utils.py 50-52): no filter stripe with start at or
after the left boundary end and end at or before the right boundary
start. -/
def rowNormal (filters : List (ℚ × ℚ)) (p : BRow × BRow) : Prop :=
  (filterP (fun f => p.1.stop ≤ f.1 ∧ f.2 ≤ p.2.bgn) filters).length = 0

instance (filters : List (ℚ × ℚ)) (p : BRow × BRow) : Decidable (rowNormal filters p) := by
  unfold rowNormal; infer_instance

/-- The rows retained for the statistics (utils.py 49-53): strict size
bounds, then the `is_normal` filter. -/
def selectTads (bs : List BRow) (filters : List (ℚ × ℚ)) (mis mts res : ℚ) :
    List (BRow × BRow) :=
  filterP (rowNormal filters)
    (filterP (fun p => mis < rowLength res p ∧ rowLength res p < mts) (tadRows bs))

/-- `np.mean` with the NaN-to-0 normalisation of utils.py 66-69 folded
in (the mean of an empty selection is NaN there and 0 afterwards). -/
def meanQ (l : List ℚ) : ℚ := if l.length = 0 then 0 else l.sum / l.length

/-- The pooled per-boundary lists of utils.py 40-47: all left values
plus the final right value, or empty when the indexing raises. -/
def fullPool (f : BRow → ℚ) (rows : List (BRow × BRow)) : List ℚ :=
  match (rows.map (fun p => f p.2)).getLast? with
  | some lastv => rows.map (fun p => f p.1) ++ [lastv]
  | none => []

/-- `calc_mean_tad_size` (utils.py 13-71).  The function always returns
the six-component tuple of line 71, modelled as a heterogeneous list. -/
def calc_mean_tad_size (bs : List BRow) (filters : List (ℚ × ℚ)) (mis mts res : ℚ) :
    List PyVal :=
  let rows := tadRows bs
  let sel := selectTads bs filters mis mts res
  let meanTad := meanQ (sel.map (rowLength res))
  let sumCov := (sel.map (rowLength res)).sum
  let meanIns := match (sel.map (fun p => p.2.ins)).getLast? with
    | some lv => meanQ (sel.map (fun p => p.1.ins) ++ [lv])
    | none => 0
  let meanBsc := match (sel.map (fun p => p.2.strength)).getLast? with
    | some lv => meanQ (sel.map (fun p => p.1.strength) ++ [lv])
    | none => 0
  [PyVal.scalar meanTad, PyVal.scalar sumCov, PyVal.scalar meanIns,
    PyVal.scalar meanBsc, PyVal.qlist (fullPool BRow.ins rows),
    PyVal.qlist (fullPool BRow.strength rows)]

/-- Python tuple unpacking `a, b, c = expr`: succeeds exactly on a
three-element sequence, otherwise a `ValueError` (modelled as `none`).
`search_opt_window` (api.py 165, 197) binds three names to the result of
`calc_mean_tad_size`. -/
def pyUnpack3 : List PyVal → Option (PyVal × PyVal × PyVal)
  | [a, b, c] => some (a, b, c)
  | _ => none

/-! ## GlobalOptimumFinder (`find_global_optima`, utils.py 301-372)

The per-gamma oracle runs are abstracted: `means` and `covs` list the
mean segment size and coverage that utils.py 324-347 computes at each
grid point, `grid` the gamma values of `new_grid`. -/

/-- Ordered-dict insertion: Python dict assignment keeps the position of
an existing key and overwrites its value, and appends a new key. -/
def dictInsert : List (ℚ × ℚ) → ℚ → ℚ → List (ℚ × ℚ)
  | [], k, v => [(k, v)]
  | (k0, v0) :: rest, k, v =>
    if k0 = k then (k, v) :: rest else (k0, v0) :: dictInsert rest k v

/-- `max(d.items(), key=itemgetter(1))`: first item attaining the
maximal value (Python `max` keeps the earliest of equals). -/
def pickMax (a b : ℚ × ℚ) : ℚ × ℚ := if a.2 < b.2 then b else a

/-- First maximum of an association list by value, `none` on empty. -/
def firstMax : List (ℚ × ℚ) → Option (ℚ × ℚ)
  | [] => none
  | x :: xs => some (xs.foldl pickMax x)

/-- The crossing test of utils.py 356: product of consecutive deviations
from the target is nonpositive. -/
def crossingAt (means : List ℚ) (t : ℚ) (i : ℕ) : Prop :=
  (means.getD i 0 - t) * (means.getD (i - 1) 0 - t) ≤ 0

instance (means : List ℚ) (t : ℚ) (i : ℕ) : Decidable (crossingAt means t i) := by
  unfold crossingAt; infer_instance

/-- The candidate registered at a crossing (utils.py 357-360): the
bracketing grid point whose mean size is closer to the target, ties to
the current point. -/
def crossingPick (grid means covs : List ℚ) (t : ℚ) (i : ℕ) : ℚ × ℚ :=
  if |means.getD i 0 - t| ≤ |means.getD (i - 1) 0 - t|
  then (grid.getD i 0, covs.getD i 0)
  else (grid.getD (i - 1) 0, covs.getD (i - 1) 0)

/-- Index of the grid point globally closest to the target
(utils.py 366-367). -/
def closestIdx (means : List ℚ) (t : ℚ) : ℕ :=
  argminFirst (means.map (fun x => |x - t|))

/-- The ordered dict `local_optimas` as utils.py 335-367 fills it: one
insertion per crossing in scan order, then the globally closest grid
point. -/
def localOptimas (grid means covs : List ℚ) (t : ℚ) : List (ℚ × ℚ) :=
  let base := (List.range' 1 (means.length - 1)).foldl (fun d i =>
    if crossingAt means t i then
      dictInsert d (crossingPick grid means covs t i).1 (crossingPick grid means covs t i).2
    else d) []
  let j := closestIdx means t
  dictInsert base (grid.getD j 0) (covs.getD j 0)

/-- `find_global_optima` (utils.py 301-372) with the oracle abstracted:
the returned optimal gamma.  The target is `expected / resolution`; the
dict is never empty so the fallback 0 of the empty-`max` case is
unreachable. -/
def find_global_optima (grid means covs : List ℚ) (expected resolution : ℚ) : ℚ :=
  match firstMax (localOptimas grid means covs (expected / resolution)) with
  | some p => p.1
  | none => 0

/-! ## BoundaryNarrower (`adjust_boundaries`, utils.py 238-298)

Model: the `start_step = 1` branch with a grid of `n` consecutive
integer gammas, identified with grid indices (the value-based
`np.argwhere` lookup is then the identity).  The oracle segment count
at a gamma is the abstract `f`.  Python `round` on a half-integer is
ties-to-even. -/

/-- Python 3 `round((a + b) / 2)` for integers `a`, `b`: exact half is
rounded to the even neighbour. -/
def pyRound2 (s : ℤ) : ℤ :=
  if s % 2 = 0 then s / 2
  else if (s / 2) % 2 = 0 then s / 2 else s / 2 + 1

/-- Loop state of utils.py 258-286: probe `b1`, previous stable probe
`b1p`, opposite bracket `b2`, the remembered segment count, the
first-iteration flag, and the stored `delta`. -/
structure BState where
  b1 : ℤ
  b1p : ℤ
  b2 : ℤ
  prevCount : ℕ
  isBegin : Bool
  delta : ℕ
deriving DecidableEq, Repr

/-- The remembered segment count the comparison of utils.py 273 sees:
on the first iteration `is_begin` forces it to the current count
(utils.py 269-271). -/
def bisectPrev (f : ℤ → ℕ) (st : BState) : ℕ :=
  if st.isBegin then f st.b1 else st.prevCount

/-- One iteration of the bisection loop (utils.py 266-286). -/
def bisectStep (f : ℤ → ℕ) (st : BState) : BState :=
  if f st.b1 ≠ bisectPrev f st then
    { b1 := pyRound2 (st.b1 + st.b1p), b1p := st.b1p, b2 := st.b1,
      prevCount := bisectPrev f st, isBegin := false,
      delta := (pyRound2 (st.b1 + st.b1p) - st.b1).natAbs }
  else
    { b1 := pyRound2 (st.b1 + st.b2), b1p := st.b1, b2 := st.b2,
      prevCount := f st.b1, isBegin := false,
      delta := (pyRound2 (st.b1 + st.b2) - st.b2).natAbs }

/-- The `while delta > 1` loop, fuel-indexed; `none` means the fuel ran
out before the loop condition failed. -/
def bisectLoop (f : ℤ → ℕ) : ℕ → BState → Option BState
  | 0, st => if st.delta ≤ 1 then some st else none
  | fuel + 1, st => if st.delta ≤ 1 then some st else bisectLoop f fuel (bisectStep f st)

/-- Initial state of utils.py 258-264 for a grid of `n` consecutive
integers: `delta` starts at the grid length, the remembered count is
immaterial thanks to `is_begin` (the list `[0]` of line 258 never
survives the first comparison). -/
def initBState (n : ℕ) (upper : Bool) : BState :=
  if upper then
    { b1 := (n : ℤ) - 1, b1p := (n : ℤ) - 1, b2 := 0, prevCount := 0, isBegin := true, delta := n }
  else
    { b1 := 0, b1p := 0, b2 := (n : ℤ) - 1, prevCount := 0, isBegin := true, delta := n }

/-- Fuel sufficient for termination (established below). -/
def bisectFuel (n : ℕ) : ℕ := n * (n + 2) + n + 3

/-! ## Supporting lemmas -/

theorem filterP_eq_self {p : α → Prop} [DecidablePred p] (l : List α)
    (h : ∀ x ∈ l, p x) : filterP p l = l := by
  induction l with
  | nil => rfl
  | cons a as ih =>
    rw [filterP, if_pos (h a (List.mem_cons_self a as)),
      ih fun x hx => h x (List.mem_cons_of_mem a hx)]

theorem mem_zip_map {l : List α} {f : α → β} {s : α} {m : β}
    (h : (s, m) ∈ l.zip (l.map f)) : s ∈ l ∧ m = f s := by
  induction l with
  | nil => simp [List.zip] at h
  | cons a as ih =>
    simp only [List.map_cons, List.zip_cons_cons, List.mem_cons] at h
    rcases h with h0 | h0
    · constructor
      · rw [show s = a from congrArg Prod.fst h0]
        exact List.mem_cons_self a as
      · rw [show m = f a from congrArg Prod.snd h0, show s = a from congrArg Prod.fst h0]
    · obtain ⟨hs, hm⟩ := ih h0
      exact ⟨List.mem_cons_of_mem a hs, hm⟩

theorem runsAux_wf (closed : List (ℤ × ℤ)) (cur vprev : ℤ) (l : List ℤ)
    (hc : ∀ p ∈ closed, p.1 ≤ p.2) (hcv : cur ≤ vprev) :
    ∀ p ∈ runsAux closed cur vprev l, p.1 ≤ p.2 := by
  induction l generalizing closed cur vprev with
  | nil =>
    intro p hp
    rcases List.mem_append.mp hp with h | h
    · exact hc p h
    · rcases List.mem_singleton.mp h with rfl; exact hcv
  | cons e es ih =>
    intro p hp
    rw [runsAux] at hp
    by_cases he : e - vprev = 1
    · rw [if_pos he] at hp
      exact ih closed cur e hc (by omega) p hp
    · rw [if_neg he] at hp
      refine ih (closed ++ [(cur, vprev)]) e e ?_ le_rfl p hp
      intro q hq
      rcases List.mem_append.mp hq with h | h
      · exact hc q h
      · rcases List.mem_singleton.mp h with rfl; exact hcv

theorem length_setRangeFalse (l : List Bool) (lo hi : ℕ) :
    (setRangeFalse l lo hi).length = l.length := by
  induction l generalizing lo hi with
  | nil => rfl
  | cons b bs ih => simp [setRangeFalse, ih]

theorem getElem?_setRangeFalse (l : List Bool) (lo hi i : ℕ) :
    (setRangeFalse l lo hi)[i]? =
      if lo ≤ i ∧ i < hi ∧ i < l.length then some false else l[i]? := by
  induction l generalizing lo hi i with
  | nil => simp [setRangeFalse]
  | cons b bs ih =>
    cases i with
    | zero =>
      have hcond : (lo ≤ 0 ∧ 0 < hi ∧ 0 < (b :: bs).length) ↔ (lo = 0 ∧ 0 < hi) := by
        simp only [List.length_cons]; omega
      simp only [setRangeFalse, List.getElem?_cons_zero]
      by_cases h : lo = 0 ∧ 0 < hi
      · rw [if_pos h, if_pos (hcond.mpr h)]
      · rw [if_neg h, if_neg fun hc => h (hcond.mp hc)]
    | succ i =>
      simp only [setRangeFalse, List.getElem?_cons_succ]
      rw [ih]
      have hcond : (lo - 1 ≤ i ∧ i < hi - 1 ∧ i < bs.length) ↔
          (lo ≤ i + 1 ∧ i + 1 < hi ∧ i + 1 < (b :: bs).length) := by
        simp only [List.length_cons]; omega
      by_cases h : lo - 1 ≤ i ∧ i < hi - 1 ∧ i < bs.length
      · rw [if_pos h, if_pos (hcond.mp h)]
      · rw [if_neg h, if_neg fun hc => h (hcond.mpr hc)]

theorem foldl_setRange_getElem? (f g : ℤ × ℤ → ℕ) (stripes : List (ℤ × ℤ))
    (good : List Bool) (i : ℕ) :
    (stripes.foldl (fun gd st => setRangeFalse gd (f st) (g st)) good)[i]? =
      if (∃ st ∈ stripes, f st ≤ i ∧ i < g st) ∧ i < good.length then some false
      else good[i]? := by
  induction stripes generalizing good with
  | nil => simp
  | cons st rest ih =>
    rw [List.foldl_cons, ih, length_setRangeFalse, getElem?_setRangeFalse]
    by_cases hr : (∃ s ∈ rest, f s ≤ i ∧ i < g s) ∧ i < good.length
    · obtain ⟨⟨s, hs, hfs⟩, hlen⟩ := hr
      rw [if_pos ⟨⟨s, hs, hfs⟩, hlen⟩, if_pos ⟨⟨s, List.mem_cons_of_mem st hs, hfs⟩, hlen⟩]
    · rw [if_neg hr]
      by_cases hst : f st ≤ i ∧ i < g st ∧ i < good.length
      · rw [if_pos ⟨hst.1, hst.2.1, hst.2.2⟩,
          if_pos ⟨⟨st, List.mem_cons_self st rest, hst.1, hst.2.1⟩, hst.2.2⟩]
      · have hneg : ¬ ((∃ s ∈ st :: rest, f s ≤ i ∧ i < g s) ∧ i < good.length) := by
          rintro ⟨⟨s, hs, h1, h2⟩, hlen⟩
          rcases List.mem_cons.mp hs with h0 | hs0
          · exact hst ⟨h0 ▸ h1, h0 ▸ h2, hlen⟩
          · exact hr ⟨⟨s, hs0, h1, h2⟩, hlen⟩
        rw [if_neg fun hc => hst ⟨hc.1, hc.2.1, hc.2.2⟩, if_neg hneg]

/-! ## Claim C5 -/

/-- C5: `calc_mean_tad_size` always returns the six-component tuple of
utils.py 71, while `search_opt_window` (api.py 165, 197) unpacks the
result into exactly three names; Python tuple unpacking of a
six-element sequence into three targets raises `ValueError`, so the
per-window statistics step fails on every input, before any statistics
can be recorded. -/
theorem calc_mean_tad_size_unpack_mismatch :
    ∀ (bs : List BRow) (filters : List (ℚ × ℚ)) (mis mts res : ℚ),
      (calc_mean_tad_size bs filters mis mts res).length = 6 ∧
      pyUnpack3 (calc_mean_tad_size bs filters mis mts res) = none := by
  intro bs filters mis mts res
  exact ⟨rfl, rfl⟩

/-! ## Claim C10 -/

/-- C10 (amended): a matrix whose only zero row-sum bin is `b` yields
the single length-1 bad interval `(b, b)`; the width filter
`end - start >= 0` passes every produced run; but a matrix with no
zero row-sum bins does not yield an empty interval set — `v[0]` on the
empty bad-bin array raises, modelled by `none`. -/
theorem get_noisy_stripes_edge_cases :
    (∀ (mtx : List (List ℚ)) (res b : ℤ), badIdx mtx = [b] →
      get_noisy_stripes mtx Method.armatus res =
        some ([(b, b)], buildMask mtx.length [(b, b)] Method.armatus res)) ∧
    (∀ (v : List ℤ) (runs : List (ℤ × ℤ)), buildRuns v = some runs →
      filterP (fun p => 0 ≤ p.2 - p.1) runs = runs) ∧
    (∀ (mtx : List (List ℚ)) (method : Method) (res : ℤ), badIdx mtx = [] →
      get_noisy_stripes mtx method res = none) := by
  refine ⟨?_, ?_, ?_⟩
  · intro mtx res b hb
    unfold get_noisy_stripes
    rw [hb]
    have hruns : buildRuns [b] = some [(b, b)] := rfl
    rw [hruns]
    have hfilt : filterP (fun p : ℤ × ℤ => 0 ≤ p.2 - p.1) [(b, b)] = [(b, b)] := by
      apply filterP_eq_self
      intro p hp
      rcases List.mem_singleton.mp hp with rfl
      simp
    have hstr : gnsStripes [(b, b)] Method.armatus res = [(b, b)] := by
      unfold gnsStripes
      simp only [hfilt]
      rfl
    show some (gnsStripes [(b, b)] Method.armatus res,
      buildMask mtx.length (gnsStripes [(b, b)] Method.armatus res) Method.armatus res) = _
    rw [hstr]
  · intro v runs hr
    cases v with
    | nil => simp [buildRuns] at hr
    | cons v0 rest =>
      rw [buildRuns, Option.some.injEq] at hr
      apply filterP_eq_self
      intro p hp
      have := runsAux_wf [] v0 v0 rest.dropLast (by intro q hq; simp at hq) le_rfl p (hr ▸ hp)
      omega
  · intro mtx method res hb
    unfold get_noisy_stripes
    rw [hb]
    rfl

/-- C10 witness: the theorem applied to a matrix with exactly one bad
bin, to an arbitrary bad-bin list, and to a matrix with none. -/
theorem get_noisy_stripes_edge_cases_witness :
    badIdx [[0, 1, 0], [0, 0, 0], [0, 1, 0]] = [1] ∧
    get_noisy_stripes [[0, 1, 0], [0, 0, 0], [0, 1, 0]] Method.armatus 1 =
      some ([(1, 1)], buildMask 3 [(1, 1)] Method.armatus 1) ∧
    buildRuns [3, 9, 10, 11] = some [(3, 3), (9, 10)] ∧
    filterP (fun p : ℤ × ℤ => 0 ≤ p.2 - p.1) [(3, 3), (9, 10)] = [(3, 3), (9, 10)] ∧
    badIdx [[0, 1], [1, 0]] = [] ∧
    get_noisy_stripes [[0, 1], [1, 0]] Method.modularity 1 = none := by
  have h1 : badIdx [[(0 : ℚ), 1, 0], [0, 0, 0], [0, 1, 0]] = [1] := by
    simp only [badIdx, List.length_cons, List.length_nil, List.range_succ, List.range_zero]
    norm_num [filterP, List.getD]
  have h2 : badIdx [[(0 : ℚ), 1], [1, 0]] = [] := by
    simp only [badIdx, List.length_cons, List.length_nil, List.range_succ, List.range_zero]
    norm_num [filterP, List.getD]
  exact ⟨h1,
    get_noisy_stripes_edge_cases.1 [[0, 1, 0], [0, 0, 0], [0, 1, 0]] 1 1 h1,
    by decide,
    get_noisy_stripes_edge_cases.2.1 [3, 9, 10, 11] [(3, 3), (9, 10)] (by decide),
    h2,
    get_noisy_stripes_edge_cases.2.2 [[0, 1], [1, 0]] Method.modularity 1 h2⟩

/-! ## Claim C4 -/

/-- Grid-index distance between the two bounds. -/
def bsD (st : BState) : ℕ := (st.b1 - st.b2).natAbs

/-- Grid-index distance between the probe and the previous probe. -/
def bsP (st : BState) : ℕ := (st.b1 - st.b1p).natAbs

/-- Combined span of the three tracked positions. -/
def bsM (st : BState) : ℕ := bsD st + bsP st

/-- Termination measure: lexicographic `(bsM, bsD)` packed against the
bound `M0` on `bsM`. -/
def bsMu (M0 : ℕ) (st : BState) : ℕ := bsM st * (M0 + 2) + bsD st

theorem pyRound2_between (a b : ℤ) :
    min a b ≤ pyRound2 (a + b) ∧ pyRound2 (a + b) ≤ max a b := by
  unfold pyRound2
  split_ifs <;> omega

theorem pyRound2_ne_ends (a b : ℤ) (h : 2 ≤ (a - b).natAbs) :
    pyRound2 (a + b) ≠ a ∧ pyRound2 (a + b) ≠ b := by
  unfold pyRound2
  split_ifs <;> omega

theorem bisectStep_delta (f : ℤ → ℕ) (st : BState) :
    (bisectStep f st).delta = bsD (bisectStep f st) := by
  unfold bisectStep bsD
  split_ifs <;> rfl

theorem bisectStep_M_le (f : ℤ → ℕ) (st : BState) :
    bsM (bisectStep f st) ≤ bsM st := by
  unfold bisectStep
  split_ifs with h
  · have hb := pyRound2_between st.b1 st.b1p
    unfold bsM bsD bsP
    simp only []
    omega
  · have hb := pyRound2_between st.b1 st.b2
    unfold bsM bsD bsP
    simp only []
    omega

theorem bisectStep_mu_lt (f : ℤ → ℕ) (M0 : ℕ) (st : BState)
    (hM : bsM st ≤ M0) (hD : 1 ≤ bsD st)
    (hd2 : 2 ≤ (bisectStep f st).delta) :
    bsMu M0 (bisectStep f st) < bsMu M0 st := by
  rw [bisectStep_delta] at hd2
  unfold bisectStep at hd2 ⊢
  split_ifs at hd2 ⊢ with h
  · -- probe flip: new bracket is (m, b1) with m the midpoint toward b1p
    have hb := pyRound2_between st.b1 st.b1p
    simp only [bsMu, bsM, bsD, bsP] at hd2 hM hD ⊢
    -- sums: new D + new P = old P; new D contributes at most M0
    have hsum : (pyRound2 (st.b1 + st.b1p) - st.b1).natAbs +
        (pyRound2 (st.b1 + st.b1p) - st.b1p).natAbs = (st.b1 - st.b1p).natAbs := by
      omega
    set Dn := (pyRound2 (st.b1 + st.b1p) - st.b1).natAbs with hDn
    set Pn := (pyRound2 (st.b1 + st.b1p) - st.b1p).natAbs with hPn
    set D := (st.b1 - st.b2).natAbs with hDdef
    set P := (st.b1 - st.b1p).natAbs with hPdef
    have hexp1 : (Dn + Pn) * (M0 + 2) + Dn = P * (M0 + 2) + Dn := by rw [hsum]
    have hexp2 : (D + P) * (M0 + 2) = D * (M0 + 2) + P * (M0 + 2) := Nat.add_mul D P _
    have hDm : M0 + 2 ≤ D * (M0 + 2) := by
      calc M0 + 2 = 1 * (M0 + 2) := (Nat.one_mul _).symm
        _ ≤ D * (M0 + 2) := Nat.mul_le_mul_right _ hD
    have hDn_le : Dn ≤ P := by omega
    calc (Dn + Pn) * (M0 + 2) + Dn = P * (M0 + 2) + Dn := hexp1
      _ < D * (M0 + 2) + P * (M0 + 2) + D := by
          have : Dn < M0 + 2 + D := by omega
          omega
      _ = (D + P) * (M0 + 2) + D := by rw [hexp2]
  · -- stable move: new bracket is (m, b2) with m the midpoint toward b2
    have hb := pyRound2_between st.b1 st.b2
    simp only [bsMu, bsM, bsD, bsP] at hd2 hM hD ⊢
    have hsum : (pyRound2 (st.b1 + st.b2) - st.b2).natAbs +
        (pyRound2 (st.b1 + st.b2) - st.b1).natAbs = (st.b1 - st.b2).natAbs := by
      omega
    set Dn := (pyRound2 (st.b1 + st.b2) - st.b2).natAbs with hDn
    set Pn := (pyRound2 (st.b1 + st.b2) - st.b1).natAbs with hPn
    set D := (st.b1 - st.b2).natAbs with hDdef
    set P := (st.b1 - st.b1p).natAbs with hPdef
    by_cases hP : 1 ≤ P
    · have hexp2 : (D + P) * (M0 + 2) = D * (M0 + 2) + P * (M0 + 2) := Nat.add_mul D P _
      have hPm : M0 + 2 ≤ P * (M0 + 2) := by
        calc M0 + 2 = 1 * (M0 + 2) := (Nat.one_mul _).symm
          _ ≤ P * (M0 + 2) := Nat.mul_le_mul_right _ hP
      have hDn_le : Dn ≤ D := by omega
      calc (Dn + Pn) * (M0 + 2) + Dn = D * (M0 + 2) + Dn := by rw [hsum]
        _ < D * (M0 + 2) + P * (M0 + 2) + D := by omega
        _ = (D + P) * (M0 + 2) + D := by rw [hexp2]
    · -- previous probe coincides with the probe: the midpoint moves
      -- strictly off the probe because the new distance is at least 2
      have hD2 : 2 ≤ D := by omega
      have hne := (pyRound2_ne_ends st.b1 st.b2 (by omega)).1
      have hPn1 : 1 ≤ Pn := by omega
      have hDn_lt : Dn < D := by omega
      have hP0 : P = 0 := by omega
      rw [hP0, Nat.add_zero]
      calc (Dn + Pn) * (M0 + 2) + Dn = D * (M0 + 2) + Dn := by rw [hsum]
        _ < D * (M0 + 2) + D := by omega

theorem bisectLoop_terminates (f : ℤ → ℕ) (M0 : ℕ) :
    ∀ (fuel : ℕ) (st : BState), bsM st ≤ M0 → bsD st ≤ st.delta →
      st.delta ≤ bsD st + 1 → bsMu M0 st + 2 ≤ fuel →
      ∃ st', bisectLoop f fuel st = some st' ∧ st'.delta ≤ 1 := by
  intro fuel
  induction fuel with
  | zero => intro st _ _ _ hfuel; omega
  | succ fuel ih =>
    intro st hM hinv1 hinv2 hfuel
    by_cases hd : st.delta ≤ 1
    · exact ⟨st, by rw [bisectLoop, if_pos hd], hd⟩
    · have hD1 : 1 ≤ bsD st := by omega
      have hMle := bisectStep_M_le f st
      have hδ := bisectStep_delta f st
      by_cases hd' : (bisectStep f st).delta ≤ 1
      · refine ⟨bisectStep f st, ?_, hd'⟩
        rw [bisectLoop, if_neg hd]
        cases fuel with
        | zero => rw [bisectLoop, if_pos hd']
        | succ fuel2 => rw [bisectLoop, if_pos hd']
      · have hmu : bsMu M0 (bisectStep f st) < bsMu M0 st :=
          bisectStep_mu_lt f M0 st hM hD1 (by omega)
        obtain ⟨st', hrun, hle⟩ := ih (bisectStep f st) (le_trans hMle hM)
          (le_of_eq hδ.symm) (by rw [hδ]; omega) (by omega)
        exact ⟨st', by rw [bisectLoop, if_neg hd]; exact hrun, hle⟩

/-- C4 (amended): the bisection loop of `adjust_boundaries` terminates
on every integer-step grid of `n` consecutive gamma values, for both
boundary types and any oracle count function, ending exactly when the
stored grid-index distance is at most 1.  What decreases strictly each
iteration is the lexicographic measure `(bsM, bsD)` (packed as `bsMu`),
not the index distance alone — see the counterexample theorem. -/
theorem adjust_boundaries_terminates :
    ∀ (f : ℤ → ℕ) (n : ℕ) (upper : Bool), 1 ≤ n →
      ∃ st', bisectLoop f (bisectFuel n) (initBState n upper) = some st' ∧
        st'.delta ≤ 1 := by
  intro f n upper hn
  have hD : bsD (initBState n upper) = n - 1 := by
    unfold bsD initBState
    split_ifs <;> simp only [] <;> omega
  have hP : bsP (initBState n upper) = 0 := by
    unfold bsP initBState
    split_ifs <;> simp only [] <;> omega
  have hdelta : (initBState n upper).delta = n := by
    unfold initBState
    split_ifs <;> rfl
  have hM : bsM (initBState n upper) ≤ n := by
    unfold bsM
    omega
  have hprod : (n - 1 + 0) * (n + 2) ≤ n * (n + 2) :=
    Nat.mul_le_mul_right _ (by omega)
  have hfuel : bsMu n (initBState n upper) + 2 ≤ bisectFuel n := by
    unfold bsMu bsM bisectFuel
    rw [hD, hP]
    omega
  exact bisectLoop_terminates f n (bisectFuel n) (initBState n upper) hM
    (by omega) (by omega) hfuel

/-- C4 witness: termination on the six-point grid with a concrete count
function. -/
theorem adjust_boundaries_terminates_witness :
    1 ≤ 6 ∧
    ∃ st', bisectLoop (fun b => if b ≤ 2 then 1 else 0) (bisectFuel 6)
      (initBState 6 true) = some st' ∧ st'.delta ≤ 1 :=
  ⟨by norm_num,
    adjust_boundaries_terminates (fun b => if b ≤ 2 then 1 else 0) 6 true (by norm_num)⟩

/-- C4 counterexample: on the grid `0..5` with a count function that
changes between gammas 2 and 5, the first iteration reaches distance 2
and the second iteration — a probe flip — leaves it at 2: the
grid-index distance between the bounds does not strictly decrease on
every iteration, refuting the claimed per-iteration strict decrease. -/
theorem adjust_boundaries_delta_not_strict_cex :
    (bisectStep (fun b => if b ≤ 2 then 1 else 0) (initBState 6 true)).delta = 2 ∧
    1 < (bisectStep (fun b => if b ≤ 2 then 1 else 0) (initBState 6 true)).delta ∧
    (bisectStep (fun b => if b ≤ 2 then 1 else 0)
      (bisectStep (fun b => if b ≤ 2 then 1 else 0) (initBState 6 true))).delta = 2 := by
  decide

/-! ## A concrete adaptive-threshold run

Two clean candidates at gap 5 from the noise stripes, both of length 3,
over a 22-bin matrix whose stripes cover half the bins: the noise
frequency is 1/2, the threshold index is 1, and the computed threshold
equals the (common) metric of both candidates, so both are dropped even
though their metrics are strictly positive. -/

/-- The common noise metric of both candidates: `log(5)^2 * log(3)`. -/
noncomputable def cMet : ℝ := Real.log 5 ^ 2 * Real.log 3

theorem cMet_pos : 0 < cMet :=
  mul_pos (pow_pos (Real.log_pos (by norm_num)) 2) (Real.log_pos (by norm_num))

theorem cMet_le_big : cMet ≤ 1e10 := by
  have h5 := Real.log_le_sub_one_of_pos (by norm_num : (0 : ℝ) < 5)
  have h3 := Real.log_le_sub_one_of_pos (by norm_num : (0 : ℝ) < 3)
  have h5p := Real.log_pos (by norm_num : (1 : ℝ) < 5)
  have h3p := Real.log_pos (by norm_num : (1 : ℝ) < 3)
  have hsq : Real.log 5 ^ 2 ≤ 4 ^ 2 :=
    pow_le_pow_left (le_of_lt h5p) (by linarith) 2
  calc cMet ≤ 4 ^ 2 * 2 :=
      mul_le_mul hsq (by linarith) (le_of_lt h3p) (by norm_num)
    _ ≤ 1e10 := by norm_num

theorem cMet_le_right : cMet ≤ Real.log 10 ^ 2 * Real.log 3 := by
  have h5p := Real.log_pos (by norm_num : (1 : ℝ) < 5)
  have hmono : Real.log 5 ≤ Real.log 10 :=
    (Real.log_le_log_iff (by norm_num) (by norm_num)).mpr (by norm_num)
  exact mul_le_mul_of_nonneg_right
    (pow_le_pow_left (le_of_lt h5p) hmono 2)
    (le_of_lt (Real.log_pos (by norm_num)))

theorem cMetric_left : calc_noisy_metric (0, 3) [(8, 12), (30, 35)] Method.armatus 0 0
    = cMet := by
  unfold calc_noisy_metric
  rw [if_neg (by decide), if_pos (by decide)]
  show min (1e10 : ℝ) (sideMetric ((8 : ℤ) - 3) ((3 : ℤ) - 0) Method.armatus) = cMet
  unfold sideMetric
  rw [if_neg (by decide)]
  rw [show (((8 : ℤ) - 3 : ℤ) : ℝ) = 5 by norm_num,
    show (((3 : ℤ) - 0 : ℤ) : ℝ) = 3 by norm_num]
  exact min_eq_right cMet_le_big

theorem cMetric_right : calc_noisy_metric (17, 20) [(8, 12), (30, 35)] Method.armatus 0 0
    = cMet := by
  unfold calc_noisy_metric
  rw [if_neg (by decide), if_pos (by decide)]
  show min (sideMetric ((17 : ℤ) - 12) ((20 : ℤ) - 17) Method.armatus)
    (sideMetric ((30 : ℤ) - 20) ((20 : ℤ) - 17) Method.armatus) = cMet
  unfold sideMetric
  rw [if_neg (by decide)]
  rw [show (((17 : ℤ) - 12 : ℤ) : ℝ) = 5 by norm_num,
    show (((20 : ℤ) - 17 : ℤ) : ℝ) = 3 by norm_num,
    show (((30 : ℤ) - 20 : ℤ) : ℝ) = 10 by norm_num]
  exact min_eq_left cMet_le_right

theorem cSized : sizeFilter 1 100 [((0 : ℤ), (3 : ℤ)), (17, 20)] = [(0, 3), (17, 20)] := by
  unfold sizeFilter
  rw [filterP, if_pos (by decide), filterP, if_pos (by decide)]
  rfl

theorem cMetrics : tadMetrics [(8, 12), (30, 35)] Method.armatus [(0, 3), (17, 20)]
    = [cMet, cMet] := by
  unfold tadMetrics
  rw [List.map_cons, List.map_cons, List.map_nil, cMetric_left, cMetric_right]

theorem cHist : tadsHist [cMet, cMet] = [cMet, cMet] := by
  unfold tadsHist
  have hsort : ([cMet, cMet].insertionSort (· ≤ ·)) = [cMet, cMet] := by
    simp only [List.insertionSort, List.orderedInsert]
    rw [if_pos le_rfl]
  rw [hsort, filterP, if_pos cMet_pos, filterP, if_pos cMet_pos]
  rfl

theorem cIdx : threshIdx 2 [((8 : ℤ), (12 : ℤ)), (30, 35)] 22 = 1 := by
  unfold threshIdx pyTruncR
  rw [show noiseWidthSum [((8 : ℤ), (12 : ℤ)), (30, 35)] = 11 from by decide]
  norm_num

theorem cThresh : tadsThresh [cMet, cMet] [(8, 12), (30, 35)] 22 = some cMet := by
  have hslice : pySliceTo [cMet, cMet] (1 : ℤ) = [cMet] := by
    unfold pySliceTo
    rw [if_pos (by norm_num)]
    rfl
  have hget : pyGet [cMet, cMet] (1 : ℤ) = some cMet := by
    unfold pyGet
    rw [if_pos (by norm_num)]
    rfl
  unfold tadsThresh
  rw [cHist, show ([cMet, cMet] : List ℝ).length = 2 from rfl, cIdx, hslice, hget]
  show some ((cMet + cMet) / 2) = some cMet
  rw [show (cMet + cMet) / 2 = cMet by ring]

theorem cBody : ptsBody [(0, 3), (17, 20)] [(8, 12), (30, 35)] 22 Method.armatus 1 100
    = [] := by
  unfold ptsBody
  rw [cSized, cMetrics, cThresh]
  show (filterP (fun p => cMet < p.2)
    ([((0 : ℤ), (3 : ℤ)), (17, 20)].zip [cMet, cMet])).map Prod.fst = []
  rw [show ([((0 : ℤ), (3 : ℤ)), (17, 20)].zip [cMet, cMet])
      = [((0, 3), cMet), ((17, 20), cMet)] from rfl]
  rw [filterP, if_neg (lt_irrefl cMet), filterP, if_neg (lt_irrefl cMet), filterP]
  rfl

theorem cProduce : produce_tads_segmentation [(0, 3), (17, 20)] [(8, 12), (30, 35)] 22
    Method.armatus 1 100 = some [] := by
  show some (ptsBody [(0, 3), (17, 20)] [(8, 12), (30, 35)] 22 Method.armatus 1 100)
    = some []
  rw [cBody]

theorem cThreshFull : tadsThresh (tadMetrics [(8, 12), (30, 35)] Method.armatus
    (sizeFilter 1 100 [(0, 3), (17, 20)])) [(8, 12), (30, 35)] 22 = some cMet := by
  rw [cSized, cMetrics]
  exact cThresh

/-! ## Claim C1 -/

/-- C1 (amended): for density methods the percentile/noise-frequency
adaptive threshold IS active in `produce_tads_segmentation`: when its
computation succeeds with value `t`, exactly the size-filtered
candidates with metric strictly above `t` survive (`t` is not 0 in
general); when it raises, all size-filtered candidates survive.  The
disabled-adaptive-mode behavior with fixed threshold 0 — keeping
exactly the non-hard-rejected candidates — belongs to
`produce_boundaries_segmentation` (the insulation path), where the
adaptive block is commented out. -/
theorem produce_tads_adaptive_threshold_active :
    (∀ (segments filters : List (ℤ × ℤ)) (mtxN : ℤ) (method : Method) (mis mts : ℤ)
      (out : List (ℤ × ℤ)),
      produce_tads_segmentation segments filters mtxN method mis mts = some out →
      (∀ t : ℝ,
        tadsThresh (tadMetrics filters method (sizeFilter mis mts segments)) filters mtxN
          = some t →
        out = (filterP (fun p => t < p.2)
          ((sizeFilter mis mts segments).zip
            (tadMetrics filters method (sizeFilter mis mts segments)))).map Prod.fst) ∧
      (tadsThresh (tadMetrics filters method (sizeFilter mis mts segments)) filters mtxN
          = none →
        out = sizeFilter mis mts segments)) ∧
    (∀ (coords filters : List (ℤ × ℤ)) (resolution k : ℤ),
      produce_boundaries_filter coords filters Method.insulation resolution k =
        filterP (fun b => ¬ whether_tad_noisy b filters Method.insulation resolution k)
          coords) := by
  constructor
  · intro segments filters mtxN method mis mts out hout
    have hbody : out = ptsBody segments filters mtxN method mis mts := by
      cases method with
      | insulation => exact absurd hout (by simp [produce_tads_segmentation])
      | armatus => exact (Option.some.inj hout).symm
      | modularity => exact (Option.some.inj hout).symm
    constructor
    · intro t ht
      rw [hbody]
      unfold ptsBody
      rw [ht]
    · intro ht
      rw [hbody]
      unfold ptsBody
      rw [ht]
  · intro coords filters resolution k
    unfold produce_boundaries_filter
    apply filterP_congr
    intro b _
    unfold calc_noisy_metric
    by_cases hn : whether_tad_noisy b filters Method.insulation resolution k
    · rw [if_pos hn]
      constructor
      · intro h0; exact absurd h0 (by norm_num)
      · intro hnn; exact absurd hn hnn
    · rw [if_neg hn, if_neg (by simp)]
      constructor
      · intro _; exact hn
      · intro _; norm_num

/-- C1 witness: the amended description applied to the concrete
adaptive run, and the boundaries-path form at a concrete call. -/
theorem produce_tads_adaptive_threshold_active_witness :
    produce_tads_segmentation [(0, 3), (17, 20)] [(8, 12), (30, 35)] 22
      Method.armatus 1 100 = some [] ∧
    ([] : List (ℤ × ℤ)) = (filterP (fun p => cMet < p.2)
      ((sizeFilter 1 100 [(0, 3), (17, 20)]).zip
        (tadMetrics [(8, 12), (30, 35)] Method.armatus
          (sizeFilter 1 100 [(0, 3), (17, 20)])))).map Prod.fst ∧
    produce_boundaries_filter [(0, 5)] [(2, 3)] Method.insulation 1 0 =
      filterP (fun b => ¬ whether_tad_noisy b [(2, 3)] Method.insulation 1 0) [(0, 5)] :=
  ⟨cProduce,
    ((produce_tads_adaptive_threshold_active.1 [(0, 3), (17, 20)] [(8, 12), (30, 35)] 22
      Method.armatus 1 100 [] cProduce).1 cMet cThreshFull),
    produce_tads_adaptive_threshold_active.2 [(0, 5)] [(2, 3)] 1 0⟩

/-- C1 counterexample: with threshold default 0 only hard-rejected
candidates would be dropped, but in this run both candidates pass the
size filter with strictly positive metrics and the returned
segmentation is nevertheless empty — the adaptive threshold is active
for density methods and exceeds 0. -/
theorem produce_tads_threshold_not_default_cex :
    produce_tads_segmentation [(0, 3), (17, 20)] [(8, 12), (30, 35)] 22
      Method.armatus 1 100 = some [] ∧
    0 < calc_noisy_metric (0, 3) [(8, 12), (30, 35)] Method.armatus 0 0 ∧
    0 < calc_noisy_metric (17, 20) [(8, 12), (30, 35)] Method.armatus 0 0 ∧
    (0, 3) ∈ sizeFilter 1 100 [((0 : ℤ), (3 : ℤ)), (17, 20)] ∧
    (17, 20) ∈ sizeFilter 1 100 [((0 : ℤ), (3 : ℤ)), (17, 20)] := by
  refine ⟨cProduce, ?_, ?_, ?_, ?_⟩
  · rw [cMetric_left]; exact cMet_pos
  · rw [cMetric_right]; exact cMet_pos
  · rw [cSized]; exact List.mem_cons_self _ _
  · rw [cSized]; exact List.mem_cons_of_mem _ (List.mem_cons_self _ _)

/-! ## Claim C2 -/

theorem pyTruncQ_intCast (z : ℤ) : pyTruncQ (z : ℚ) = z := by
  unfold pyTruncQ
  split_ifs <;> simp

theorem intCast_mul_div_cancel (a res : ℤ) (h : res ≠ 0) :
    ((a * res : ℤ) : ℚ) / (res : ℚ) = (a : ℚ) := by
  have : (res : ℚ) ≠ 0 := Int.cast_ne_zero.mpr h
  push_cast
  field_simp

/-- Membership characterization of the good-bin mask: false exactly on
the bins each stripe's slice covers. -/
theorem buildMask_false_iff (n : ℕ) (stripes : List (ℤ × ℤ)) (method : Method)
    (res : ℤ) (i : ℕ) (hi : i < n) :
    (buildMask n stripes method res)[i]? = some false ↔
      ∃ st ∈ stripes, stripeLo method res st ≤ i ∧ i < stripeHi method res st := by
  unfold buildMask
  rw [foldl_setRange_getElem? (stripeLo method res) (stripeHi method res) stripes
    (List.replicate n true) i]
  rw [List.length_replicate]
  by_cases h : (∃ st ∈ stripes, stripeLo method res st ≤ i ∧ i < stripeHi method res st)
  · rw [if_pos ⟨h, hi⟩]
    simp [h]
  · rw [if_neg fun hc => h hc.1]
    simp only [List.getElem?_replicate, if_pos hi]
    constructor
    · intro hfalse
      exact absurd (Option.some.injEq .. ▸ hfalse) (by simp)
    · intro hex
      exact absurd hex h

/-- C2 (amended): the mask round-trip holds against the BadIntervals the
code actually produces — `GoodBinMask[i] = false` iff bin `i` is covered
by a returned stripe (endpoints inclusive in bin space for density
methods; genomic half-open for insulation) — but those BadIntervals are
the maximal runs of the zero row-sum indices with the last such index
dropped: the grouping loop of utils.py 470 stops at `len(v) - 2`, so
when at least two bad bins exist the final one never enters any run. -/
theorem noise_mask_roundtrip_and_runs :
    (∀ (mtx : List (List ℚ)) (res : ℤ) (filters : List (ℤ × ℤ)) (mask : List Bool),
      get_noisy_stripes mtx Method.armatus res = some (filters, mask) →
      ∀ i : ℕ, i < mtx.length →
        (mask[i]? = some false ↔ ∃ f ∈ filters, f.1 ≤ (i : ℤ) ∧ (i : ℤ) ≤ f.2)) ∧
    (∀ (mtx : List (List ℚ)) (res : ℤ), 0 < res →
      ∀ (filters : List (ℤ × ℤ)) (mask : List Bool),
      get_noisy_stripes mtx Method.insulation res = some (filters, mask) →
      ∀ i : ℕ, i < mtx.length →
        (mask[i]? = some false ↔
          ∃ f ∈ filters, f.1 ≤ (i : ℤ) * res ∧ (i : ℤ) * res < f.2)) ∧
    (∀ v : List ℤ, 2 ≤ v.length → buildRuns v = some (specRuns v.dropLast)) := by
  refine ⟨?_, ?_, ?_⟩
  · intro mtx res filters mask h i hi
    unfold get_noisy_stripes at h
    cases hr : buildRuns (badIdx mtx) with
    | none => rw [hr] at h; exact absurd h (by simp)
    | some runs =>
      rw [hr] at h
      have h2 : filters = gnsStripes runs Method.armatus res ∧
          mask = buildMask mtx.length (gnsStripes runs Method.armatus res)
            Method.armatus res := by
        have := Option.some.injEq .. ▸ h
        exact ⟨(congrArg Prod.fst this).symm, (congrArg Prod.snd this).symm⟩
      rw [h2.1, h2.2, buildMask_false_iff _ _ _ _ i hi]
      constructor
      · rintro ⟨st, hst, hcov⟩
        refine ⟨st, hst, ?_, ?_⟩ <;>
          · have hlo : stripeLo Method.armatus res st = st.1.toNat := rfl
            have hhi : stripeHi Method.armatus res st = (st.2 + 1).toNat := rfl
            rw [hlo, hhi] at hcov
            omega
      · rintro ⟨st, hst, h1, h2⟩
        refine ⟨st, hst, ?_⟩
        have hlo : stripeLo Method.armatus res st = st.1.toNat := rfl
        have hhi : stripeHi Method.armatus res st = (st.2 + 1).toNat := rfl
        rw [hlo, hhi]
        omega
  · intro mtx res hres filters mask h i hi
    unfold get_noisy_stripes at h
    cases hr : buildRuns (badIdx mtx) with
    | none => rw [hr] at h; exact absurd h (by simp)
    | some runs =>
      rw [hr] at h
      have h2 : filters = gnsStripes runs Method.insulation res ∧
          mask = buildMask mtx.length (gnsStripes runs Method.insulation res)
            Method.insulation res := by
        have := Option.some.injEq .. ▸ h
        exact ⟨(congrArg Prod.fst this).symm, (congrArg Prod.snd this).symm⟩
      have hstripes : gnsStripes runs Method.insulation res =
          (filterP (fun p => 0 ≤ p.2 - p.1) runs).map
            (fun p => (p.1 * res, p.2 * res + res)) := rfl
      rw [h2.1, h2.2, buildMask_false_iff _ _ _ _ i hi, hstripes]
      have hlo : ∀ p : ℤ × ℤ,
          stripeLo Method.insulation res (p.1 * res, p.2 * res + res) = p.1.toNat := by
        intro p
        have harg : ((p.1 * res : ℤ) : ℚ) / (res : ℚ) = ((p.1 : ℤ) : ℚ) :=
          intCast_mul_div_cancel p.1 res (by omega)
        unfold stripeLo
        rw [if_pos rfl]
        rw [show ((p.1 * res, p.2 * res + res) : ℤ × ℤ).1 = p.1 * res from rfl, harg,
          pyTruncQ_intCast]
      have hhi : ∀ p : ℤ × ℤ,
          stripeHi Method.insulation res (p.1 * res, p.2 * res + res) = (p.2 + 1).toNat := by
        intro p
        have harg : ((p.2 * res + res : ℤ) : ℚ) / (res : ℚ) = (((p.2 + 1 : ℤ)) : ℚ) := by
          rw [show p.2 * res + res = (p.2 + 1) * res by ring]
          exact intCast_mul_div_cancel (p.2 + 1) res (by omega)
        unfold stripeHi
        rw [if_pos rfl]
        rw [show ((p.1 * res, p.2 * res + res) : ℤ × ℤ).2 = p.2 * res + res from rfl, harg,
          pyTruncQ_intCast]
      constructor
      · rintro ⟨st, hst, hcov⟩
        obtain ⟨p, hp, hpe⟩ := List.mem_map.mp hst
        refine ⟨(p.1 * res, p.2 * res + res), List.mem_map.mpr ⟨p, hp, rfl⟩, ?_, ?_⟩
        · have := hpe ▸ hcov
          rw [hlo p, hhi p] at this
          have hp1 : p.1 ≤ (i : ℤ) := by omega
          calc (p.1 * res : ℤ) ≤ (i : ℤ) * res := by
                exact mul_le_mul_of_nonneg_right hp1 (by omega)
            _ = (i : ℤ) * res := rfl
        · have := hpe ▸ hcov
          rw [hlo p, hhi p] at this
          have hp2 : (i : ℤ) < p.2 + 1 := by omega
          calc ((i : ℤ) * res) < (p.2 + 1) * res := by
                exact mul_lt_mul_of_pos_right hp2 hres
            _ = p.2 * res + res := by ring
      · rintro ⟨f, hf, h1, hlt⟩
        obtain ⟨p, hp, hpe⟩ := List.mem_map.mp hf
        refine ⟨(p.1 * res, p.2 * res + res), List.mem_map.mpr ⟨p, hp, rfl⟩, ?_⟩
        rw [hlo p, hhi p]
        have hf1 : f.1 = p.1 * res := by rw [← hpe]
        have hf2 : f.2 = p.2 * res + res := by rw [← hpe]
        rw [hf1] at h1
        rw [hf2] at hlt
        have hle1 : p.1 ≤ (i : ℤ) := le_of_mul_le_mul_right h1 hres
        have hle2 : (i : ℤ) < p.2 + 1 := by
          have h' : (i : ℤ) * res < (p.2 + 1) * res := by
            calc (i : ℤ) * res < p.2 * res + res := hlt
              _ = (p.2 + 1) * res := by ring
          exact lt_of_mul_lt_mul_right h' (le_of_lt hres)
        omega
  · intro v hv
    match v, hv with
    | v0 :: r :: rest, _ =>
      show some (runsAux [] v0 v0 (r :: rest).dropLast) = _
      rw [show (v0 :: r :: rest).dropLast = v0 :: (r :: rest).dropLast by
        simp [List.dropLast]]
      rfl

/-- C2 witness: the theorem at a concrete 3-bin matrix with a single
bad bin (density and insulation mask forms), and at a 4-element bad-bin
list for the runs characterization. -/
theorem noise_mask_roundtrip_and_runs_witness :
    (get_noisy_stripes [[0, 1, 0], [0, 0, 0], [0, 1, 0]] Method.armatus 1 =
      some ([(1, 1)], [true, false, true]) ∧
      (([true, false, true] : List Bool)[1]? = some false ↔
        ∃ f ∈ [((1 : ℤ), (1 : ℤ))], f.1 ≤ (1 : ℤ) ∧ (1 : ℤ) ≤ f.2)) ∧
    ((0 : ℤ) < 5 ∧
      get_noisy_stripes [[0, 1, 0], [0, 0, 0], [0, 1, 0]] Method.insulation 5 =
      some ([(5, 10)], [true, false, true]) ∧
      (([true, false, true] : List Bool)[2]? = some false ↔
        ∃ f ∈ [((5 : ℤ), (10 : ℤ))], f.1 ≤ (2 : ℤ) * 5 ∧ (2 : ℤ) * 5 < f.2)) ∧
    (2 ≤ ([3, 9, 10, 11] : List ℤ).length ∧
      buildRuns [3, 9, 10, 11] = some (specRuns ([3, 9, 10, 11] : List ℤ).dropLast)) := by
  have hb : badIdx [[(0 : ℚ), 1, 0], [0, 0, 0], [0, 1, 0]] = [1] := by
    simp only [badIdx, List.length_cons, List.length_nil, List.range_succ, List.range_zero]
    norm_num [filterP, List.getD]
  have ha : get_noisy_stripes [[(0 : ℚ), 1, 0], [0, 0, 0], [0, 1, 0]] Method.armatus 1 =
      some ([(1, 1)], [true, false, true]) := by
    unfold get_noisy_stripes
    rw [hb]
    rfl
  have hins : get_noisy_stripes [[(0 : ℚ), 1, 0], [0, 0, 0], [0, 1, 0]] Method.insulation 5 =
      some ([(5, 10)], [true, false, true]) := by
    have hlo : stripeLo Method.insulation 5 (5, 10) = 1 := by
      unfold stripeLo
      rw [if_pos rfl]
      norm_num [pyTruncQ]
    have hhi : stripeHi Method.insulation 5 (5, 10) = 2 := by
      unfold stripeHi
      rw [if_pos rfl]
      norm_num [pyTruncQ]
      decide
    have hmask : buildMask 3 [(5, 10)] Method.insulation 5 = [true, false, true] := by
      unfold buildMask
      rw [List.foldl_cons, List.foldl_nil, hlo, hhi]
      rfl
    unfold get_noisy_stripes
    rw [hb]
    show some (gnsStripes [(1, 1)] Method.insulation 5,
      buildMask 3 (gnsStripes [(1, 1)] Method.insulation 5) Method.insulation 5) = _
    have hstr : gnsStripes [(1, 1)] Method.insulation 5 = [(5, 10)] := rfl
    rw [hstr, hmask]
  refine ⟨⟨ha, ?_⟩, ⟨by norm_num, hins, ?_⟩, ⟨by norm_num, ?_⟩⟩
  · exact noise_mask_roundtrip_and_runs.1 [[0, 1, 0], [0, 0, 0], [0, 1, 0]] 1
      [(1, 1)] [true, false, true] ha 1 (by norm_num)
  · exact noise_mask_roundtrip_and_runs.2.1 [[0, 1, 0], [0, 0, 0], [0, 1, 0]] 5
      (by norm_num) [(5, 10)] [true, false, true] hins 2 (by norm_num)
  · exact noise_mask_roundtrip_and_runs.2.2 [3, 9, 10, 11] (by norm_num)

/-- C2 counterexample: bins 1 and 2 both have zero row-sum, so the
maximal run is `(1, 2)`; the code returns the truncated interval
`(1, 1)` and leaves `GoodBinMask[2] = true`, refuting the claimed
round-trip against the maximal runs. -/
theorem noise_mask_maximal_runs_cex :
    badIdx [[0, 0, 0, 1], [0, 0, 0, 0], [0, 0, 0, 0], [1, 0, 0, 0]] = [1, 2] ∧
    specRuns [1, 2] = [(1, 2)] ∧
    get_noisy_stripes [[0, 0, 0, 1], [0, 0, 0, 0], [0, 0, 0, 0], [1, 0, 0, 0]]
      Method.armatus 1 = some ([(1, 1)], [true, false, true, true]) ∧
    (([true, false, true, true] : List Bool)[2]? = some true) ∧
    ((1 : ℤ), (2 : ℤ)) ∈ specRuns [1, 2] ∧ (1 : ℤ) ≤ 2 ∧ (2 : ℤ) ≤ 2 := by
  have hb : badIdx [[(0 : ℚ), 0, 0, 1], [0, 0, 0, 0], [0, 0, 0, 0], [1, 0, 0, 0]] = [1, 2] := by
    simp only [badIdx, List.length_cons, List.length_nil, List.range_succ, List.range_zero]
    norm_num [filterP, List.getD]
  refine ⟨hb, by decide, ?_, by decide, by decide, by decide, by decide⟩
  unfold get_noisy_stripes
  rw [hb]
  rfl

/-! ## Claim C7 -/

/-- C7: the hard-reject classification holds iff some stripe, expanded
only for the insulation method, contains one of the segment's endpoints
or is wholly contained in the segment with nonzero width (the third
source test is subsumed for well-formed segments); in particular a
segment whose interior fully contains a positive-width stripe gets
metric -1 from `calc_noisy_metric`. -/
theorem whether_tad_noisy_characterization :
    (∀ (x : ℤ × ℤ) (filters : List (ℤ × ℤ)) (method : Method) (resolution k : ℤ),
      x.1 ≤ x.2 →
      (whether_tad_noisy x filters method resolution k ↔
        ∃ f ∈ filters,
          (stripeBgn f method resolution k ≤ x.1 ∧ x.1 ≤ stripeEnd f method resolution k) ∨
          (stripeBgn f method resolution k ≤ x.2 ∧ x.2 ≤ stripeEnd f method resolution k) ∨
          (x.1 ≤ stripeBgn f method resolution k ∧ stripeEnd f method resolution k ≤ x.2 ∧
            stripeEnd f method resolution k - stripeBgn f method resolution k ≠ 0))) ∧
    (∀ (x : ℤ × ℤ) (filters : List (ℤ × ℤ)) (method : Method) (resolution k : ℤ)
      (f : ℤ × ℤ), 0 ≤ resolution * k → f ∈ filters → f.1 < f.2 →
      x.1 < f.1 → f.2 < x.2 →
      calc_noisy_metric x filters method resolution k = -1) := by
  constructor
  · intro x filters method resolution k hx
    unfold whether_tad_noisy
    constructor
    · rintro ⟨f, hf, hcond⟩
      refine ⟨f, hf, ?_⟩
      unfold noisyAgainst at hcond
      omega
    · rintro ⟨f, hf, hcond⟩
      refine ⟨f, hf, ?_⟩
      unfold noisyAgainst
      omega
  · intro x filters method resolution k f hrk hf hw hx1 hx2
    have hb : stripeBgn f method resolution k ≤ f.1 := by
      unfold stripeBgn
      split_ifs <;> omega
    have he : f.2 ≤ stripeEnd f method resolution k := by
      unfold stripeEnd
      split_ifs <;> omega
    have hnoisy : whether_tad_noisy x filters method resolution k := by
      refine ⟨f, hf, ?_⟩
      unfold noisyAgainst
      omega
    unfold calc_noisy_metric
    rw [if_pos hnoisy]

/-- C7 witness: the characterization at a concrete clean segment, and
the interior-containment consequence at a concrete noisy one. -/
theorem whether_tad_noisy_characterization_witness :
    ((0 : ℤ) ≤ 3 ∧
      (whether_tad_noisy (0, 3) [(8, 12), (30, 35)] Method.armatus 0 0 ↔
        ∃ f ∈ [((8 : ℤ), (12 : ℤ)), (30, 35)],
          (stripeBgn f Method.armatus 0 0 ≤ 0 ∧ (0 : ℤ) ≤ stripeEnd f Method.armatus 0 0) ∨
          (stripeBgn f Method.armatus 0 0 ≤ 3 ∧ (3 : ℤ) ≤ stripeEnd f Method.armatus 0 0) ∨
          ((0 : ℤ) ≤ stripeBgn f Method.armatus 0 0 ∧
            stripeEnd f Method.armatus 0 0 ≤ 3 ∧
            stripeEnd f Method.armatus 0 0 - stripeBgn f Method.armatus 0 0 ≠ 0))) ∧
    ((0 : ℤ) ≤ 5 * 3 ∧ ((2 : ℤ), (3 : ℤ)) ∈ [((2 : ℤ), (3 : ℤ))] ∧ (2 : ℤ) < 3 ∧
      (0 : ℤ) < 2 ∧ (3 : ℤ) < 5 ∧
      calc_noisy_metric (0, 5) [(2, 3)] Method.insulation 5 3 = -1) :=
  ⟨⟨by norm_num,
      whether_tad_noisy_characterization.1 (0, 3) [(8, 12), (30, 35)]
        Method.armatus 0 0 (by norm_num)⟩,
    ⟨by norm_num, by decide, by norm_num, by norm_num, by norm_num,
      whether_tad_noisy_characterization.2 (0, 5) [(2, 3)] Method.insulation 5 3 (2, 3)
        (by norm_num) (by decide) (by norm_num) (by norm_num) (by norm_num)⟩⟩

/-! ## Claim C9 -/

/-- Whatever `produce_tads_segmentation` returns is drawn from the
size-filtered candidates. -/
theorem mem_ptsBody_sized {segments filters : List (ℤ × ℤ)} {mtxN : ℤ}
    {method : Method} {mis mts : ℤ} {s : ℤ × ℤ}
    (h : s ∈ ptsBody segments filters mtxN method mis mts) :
    s ∈ sizeFilter mis mts segments := by
  unfold ptsBody at h
  cases ht : tadsThresh (tadMetrics filters method (sizeFilter mis mts segments)) filters mtxN with
  | some t =>
    rw [ht] at h
    obtain ⟨p, hp, hps⟩ := List.mem_map.mp h
    have hz := (mem_filterP _ _ p).mp hp
    exact hps ▸ (mem_zip_map hz.1).1
  | none =>
    rw [ht] at h
    exact h

/-- C9: every segment returned by `produce_tads_segmentation` satisfies
the strict size bounds `mis < end - start < mts` (utils.py 160-162), and
every TAD row retained by `calc_mean_tad_size` satisfies the strict
bounds `mis < length < mts` (utils.py 49). -/
theorem segment_size_bounds :
    (∀ (segments filters : List (ℤ × ℤ)) (mtxN : ℤ) (method : Method) (mis mts : ℤ)
      (out : List (ℤ × ℤ)),
      produce_tads_segmentation segments filters mtxN method mis mts = some out →
      ∀ s ∈ out, mis < s.2 - s.1 ∧ s.2 - s.1 < mts) ∧
    (∀ (bs : List BRow) (filters : List (ℚ × ℚ)) (mis mts res : ℚ),
      ∀ p ∈ selectTads bs filters mis mts res,
        mis < rowLength res p ∧ rowLength res p < mts) := by
  constructor
  · intro segments filters mtxN method mis mts out h s hs
    have hbody : s ∈ sizeFilter mis mts segments := by
      cases method with
      | insulation => exact absurd h (by simp [produce_tads_segmentation])
      | armatus =>
        have : out = ptsBody segments filters mtxN Method.armatus mis mts :=
          (Option.some.inj h).symm
        exact mem_ptsBody_sized (this ▸ hs)
      | modularity =>
        have : out = ptsBody segments filters mtxN Method.modularity mis mts :=
          (Option.some.inj h).symm
        exact mem_ptsBody_sized (this ▸ hs)
    exact ((mem_filterP _ _ s).mp hbody).2
  · intro bs filters mis mts res p hp
    unfold selectTads at hp
    have h1 := (mem_filterP _ _ p).mp hp
    exact ((mem_filterP _ _ p).mp h1.1).2

/-- C9 witness: a run with empty filters returns the size-filtered
oracle segment, and a concrete boundary table keeps a row; both satisfy
the strict bounds. -/
theorem segment_size_bounds_witness :
    (produce_tads_segmentation [(0, 5)] [] 10 Method.modularity 3 1000 = some [(0, 5)] ∧
      (3 : ℤ) < 5 - 0 ∧ (5 : ℤ) - 0 < 1000) ∧
    ((⟨0, 1, 0, 0⟩, ⟨6, 7, 0, 0⟩) ∈
        selectTads [⟨0, 1, 0, 0⟩, ⟨6, 7, 0, 0⟩] [] 3 1000 1 ∧
      (3 : ℚ) < rowLength 1 (⟨0, 1, 0, 0⟩, ⟨6, 7, 0, 0⟩) ∧
      rowLength 1 ((⟨0, 1, 0, 0⟩ : BRow), (⟨6, 7, 0, 0⟩ : BRow)) < 1000) := by
  have hsized : sizeFilter 3 1000 [((0 : ℤ), (5 : ℤ))] = [(0, 5)] := by
    unfold sizeFilter
    rw [filterP, if_pos (by norm_num)]
    rfl
  have hmetric : calc_noisy_metric (0, 5) [] Method.modularity 0 0 = 1e10 := by
    unfold calc_noisy_metric
    rw [if_neg (by rintro ⟨f, hf, hc⟩; simp at hf), if_pos (by decide)]
    show min (1e10 : ℝ) 1e10 = 1e10
    exact min_self _
  have hhist : tadsHist (tadMetrics [] Method.modularity [(0, 5)]) = [(1e10 : ℝ)] := by
    have hmetrics : tadMetrics [] Method.modularity [(0, 5)] = [1e10] := by
      unfold tadMetrics
      rw [List.map_cons, List.map_nil, hmetric]
    rw [hmetrics]
    unfold tadsHist
    rw [show ([(1e10 : ℝ)].insertionSort (· ≤ ·)) = [1e10] from rfl,
      filterP, if_pos (by norm_num), filterP]
  have hidx : threshIdx ([(1e10 : ℝ)].length) [] 10 = 0 := by
    unfold threshIdx noiseWidthSum pyTruncR
    norm_num
  have hthresh : tadsThresh (tadMetrics [] Method.modularity [(0, 5)]) [] 10 = none := by
    unfold tadsThresh
    rw [hhist, hidx]
    rfl
  have hpts : produce_tads_segmentation [(0, 5)] [] 10 Method.modularity 3 1000 =
      some [(0, 5)] := by
    show some (ptsBody [(0, 5)] [] 10 Method.modularity 3 1000) = some [(0, 5)]
    unfold ptsBody
    rw [hsized, hthresh]
  have hsel : ((⟨0, 1, 0, 0⟩, ⟨6, 7, 0, 0⟩) : BRow × BRow) ∈
      selectTads [⟨0, 1, 0, 0⟩, ⟨6, 7, 0, 0⟩] [] 3 1000 1 := by
    unfold selectTads tadRows
    rw [show ([⟨0, 1, 0, 0⟩, ⟨6, 7, 0, 0⟩] : List BRow).zip
        ([⟨0, 1, 0, 0⟩, ⟨6, 7, 0, 0⟩] : List BRow).tail =
        [(⟨0, 1, 0, 0⟩, ⟨6, 7, 0, 0⟩)] from rfl]
    have hinner : filterP (fun p => (3 : ℚ) < rowLength 1 p ∧ rowLength 1 p < 1000)
        [((⟨0, 1, 0, 0⟩ : BRow), (⟨6, 7, 0, 0⟩ : BRow))] =
        [(⟨0, 1, 0, 0⟩, ⟨6, 7, 0, 0⟩)] := by
      rw [filterP, if_pos (by norm_num [rowLength])]
      rfl
    rw [hinner, filterP, if_pos (by decide)]
    exact List.mem_cons_self _ _
  refine ⟨⟨hpts, ?_, ?_⟩, ⟨hsel, ?_, ?_⟩⟩
  · exact (segment_size_bounds.1 [(0, 5)] [] 10 Method.modularity 3 1000 [(0, 5)] hpts
      (0, 5) (List.mem_cons_self _ _)).1
  · exact (segment_size_bounds.1 [(0, 5)] [] 10 Method.modularity 3 1000 [(0, 5)] hpts
      (0, 5) (List.mem_cons_self _ _)).2
  · exact (segment_size_bounds.2 [⟨0, 1, 0, 0⟩, ⟨6, 7, 0, 0⟩] [] 3 1000 1
      (⟨0, 1, 0, 0⟩, ⟨6, 7, 0, 0⟩) hsel).1
  · exact (segment_size_bounds.2 [⟨0, 1, 0, 0⟩, ⟨6, 7, 0, 0⟩] [] 3 1000 1
      (⟨0, 1, 0, 0⟩, ⟨6, 7, 0, 0⟩) hsel).2

/-! ## Claim C6 -/

/-- Any value the adaptive threshold computation returns is an average
of two strictly positive sorted metrics, hence strictly positive. -/
theorem tadsThresh_pos {metrics : List ℝ} {filters : List (ℤ × ℤ)} {mtxN : ℤ} {t : ℝ}
    (h : tadsThresh metrics filters mtxN = some t) : 0 < t := by
  unfold tadsThresh at h
  cases hA : (pySliceTo (tadsHist metrics)
      (threshIdx (tadsHist metrics).length filters mtxN)).getLast? with
  | none =>
    cases hB : pyGet (tadsHist metrics) (threshIdx (tadsHist metrics).length filters mtxN) with
    | none => rw [hA, hB] at h; exact absurd h (by simp)
    | some b => rw [hA, hB] at h; exact absurd h (by simp)
  | some a =>
    cases hB : pyGet (tadsHist metrics) (threshIdx (tadsHist metrics).length filters mtxN) with
    | none => rw [hA, hB] at h; exact absurd h (by simp)
    | some b =>
      rw [hA, hB] at h
      have ha : a ∈ tadsHist metrics := by
        have h1 := List.mem_of_mem_getLast? hA
        unfold pySliceTo at h1
        split_ifs at h1 <;> exact List.mem_of_mem_take h1
      have hb : b ∈ tadsHist metrics := by
        unfold pyGet at hB
        split_ifs at hB <;> first
          | exact List.getElem?_mem hB
          | exact absurd hB (by simp)
      have hap : 0 < a := ((mem_filterP _ _ a).mp ha).2
      have hbp : 0 < b := ((mem_filterP _ _ b).mp hb).2
      have ht : t = (a + b) / 2 := (Option.some.inj h).symm
      rw [ht]
      linarith

/-- Every segment of the filtered branch carries its own metric, which
exceeds the threshold. -/
theorem mem_ptsBody_of_thresh {segments filters : List (ℤ × ℤ)} {mtxN : ℤ}
    {method : Method} {mis mts : ℤ} {t : ℝ} {s : ℤ × ℤ}
    (ht : tadsThresh (tadMetrics filters method (sizeFilter mis mts segments)) filters mtxN
      = some t)
    (hs : s ∈ ptsBody segments filters mtxN method mis mts) :
    t < calc_noisy_metric s filters method 0 0 := by
  unfold ptsBody at hs
  rw [ht] at hs
  obtain ⟨p, hp, hps⟩ := List.mem_map.mp hs
  have h1 := (mem_filterP _ _ p).mp hp
  have h2 := mem_zip_map (l := sizeFilter mis mts segments)
    (f := fun s => calc_noisy_metric s filters method 0 0) h1.1
  have h22 : p.2 = calc_noisy_metric p.1 filters method 0 0 := h2.2
  rw [← hps, ← h22]
  exact h1.2

/-- C6 (amended): when the adaptive threshold computation succeeds, its
value is strictly positive and every returned segment's noise metric
strictly exceeds it — in particular no returned segment is fully noisy.
When the computation raises, however, `produce_tads_segmentation`
returns the size-filtered candidates unfiltered, and a fully noisy
segment (metric -1) can be returned (see the counterexample). -/
theorem produce_tads_threshold_soundness :
    ∀ (segments filters : List (ℤ × ℤ)) (mtxN : ℤ) (method : Method) (mis mts : ℤ)
      (out : List (ℤ × ℤ)) (t : ℝ),
      produce_tads_segmentation segments filters mtxN method mis mts = some out →
      tadsThresh (tadMetrics filters method (sizeFilter mis mts segments)) filters mtxN
        = some t →
      0 < t ∧ ∀ s ∈ out,
        t < calc_noisy_metric s filters method 0 0 ∧
        calc_noisy_metric s filters method 0 0 ≠ -1 := by
  intro segments filters mtxN method mis mts out t hout ht
  have hpos := tadsThresh_pos ht
  refine ⟨hpos, ?_⟩
  intro s hs
  have hbody : s ∈ ptsBody segments filters mtxN method mis mts := by
    cases method with
    | insulation => exact absurd hout (by simp [produce_tads_segmentation])
    | armatus => exact (Option.some.inj hout) ▸ hs
    | modularity => exact (Option.some.inj hout) ▸ hs
  have hgt := mem_ptsBody_of_thresh ht hbody
  exact ⟨hgt, by linarith⟩

/-- C6 counterexample: a fully noisy candidate (metric -1, the stripe
(2,3) sits inside it) survives `produce_tads_segmentation` because the
threshold computation raises — every metric is -1, so the positive
histogram is empty and the slice indexing fails, returning the
size-filtered candidates unfiltered. -/
theorem produce_tads_fully_noisy_survives_cex :
    produce_tads_segmentation [(0, 5)] [(2, 3)] 10 Method.armatus 3 1000 = some [(0, 5)] ∧
    calc_noisy_metric (0, 5) [(2, 3)] Method.armatus 0 0 = -1 := by
  have hmetric : calc_noisy_metric (0, 5) [(2, 3)] Method.armatus 0 0 = -1 := by
    unfold calc_noisy_metric
    rw [if_pos (by decide)]
  have hsized : sizeFilter 3 1000 [((0 : ℤ), (5 : ℤ))] = [(0, 5)] := by
    unfold sizeFilter
    rw [filterP, if_pos (by norm_num)]
    rfl
  have hmetrics : tadMetrics [(2, 3)] Method.armatus [(0, 5)] = [-1] := by
    unfold tadMetrics
    rw [List.map_cons, List.map_nil, hmetric]
  have hhist : tadsHist [(-1 : ℝ)] = [] := by
    unfold tadsHist
    rw [show ([(-1 : ℝ)].insertionSort (· ≤ ·)) = [-1] from rfl,
      filterP, if_neg (by norm_num)]
    rfl
  have hidx : threshIdx ([] : List ℝ).length [(2, 3)] 10 = 0 := by
    unfold threshIdx noiseWidthSum pyTruncR
    norm_num
  have hthresh : tadsThresh [(-1 : ℝ)] [(2, 3)] 10 = none := by
    unfold tadsThresh
    rw [hhist, hidx]
    rfl
  refine ⟨?_, hmetric⟩
  show some (ptsBody [(0, 5)] [(2, 3)] 10 Method.armatus 3 1000) = some [(0, 5)]
  unfold ptsBody
  rw [hsized, hmetrics, hthresh]

/-- C6 witness: the soundness theorem applied to the concrete
adaptive-threshold run (both candidates dropped, empty output). -/
theorem produce_tads_threshold_soundness_witness :
    produce_tads_segmentation [(0, 3), (17, 20)] [(8, 12), (30, 35)] 22
      Method.armatus 1 100 = some [] ∧
    tadsThresh (tadMetrics [(8, 12), (30, 35)] Method.armatus
      (sizeFilter 1 100 [(0, 3), (17, 20)])) [(8, 12), (30, 35)] 22 = some cMet ∧
    (0 < cMet ∧ ∀ s ∈ ([] : List (ℤ × ℤ)),
      cMet < calc_noisy_metric s [(8, 12), (30, 35)] Method.armatus 0 0 ∧
      calc_noisy_metric s [(8, 12), (30, 35)] Method.armatus 0 0 ≠ -1) :=
  ⟨cProduce, cThreshFull,
    produce_tads_threshold_soundness [(0, 3), (17, 20)] [(8, 12), (30, 35)] 22
      Method.armatus 1 100 [] cMet cProduce cThreshFull⟩

/-- C10 counterexample: a 2-bin matrix with no zero row-sum bins makes
`get_noisy_stripes` fail (the grouping code indexes the empty bad-bin
array), instead of yielding an empty BadInterval set as claimed. -/
theorem get_noisy_stripes_no_bad_bins_cex :
    badIdx [[0, 1], [1, 0]] = [] ∧
    get_noisy_stripes [[0, 1], [1, 0]] Method.armatus 1 = none := by
  have h2 : badIdx [[(0 : ℚ), 1], [1, 0]] = [] := by
    simp only [badIdx, List.length_cons, List.length_nil, List.range_succ, List.range_zero]
    norm_num [filterP, List.getD]
  refine ⟨h2, ?_⟩
  unfold get_noisy_stripes
  rw [h2]
  rfl

/-! ## Claim C8 -/

theorem filterP_map (g : α → β) (p : β → Prop) [DecidablePred p] (l : List α) :
    filterP p (l.map g) = (filterP (fun a => p (g a)) l).map g := by
  induction l with
  | nil => rfl
  | cons a as ih =>
    by_cases h : p (g a)
    · rw [List.map_cons, filterP, if_pos h, filterP, if_pos h, List.map_cons, ih]
    · rw [List.map_cons, filterP, if_neg h, filterP, if_neg h, ih]

theorem filterP_sublist (p : α → Prop) [DecidablePred p] (l : List α) :
    (filterP p l).Sublist l := by
  induction l with
  | nil => exact List.Sublist.refl []
  | cons a as ih =>
    by_cases h : p a
    · rw [filterP, if_pos h]; exact ih.cons₂ a
    · rw [filterP, if_neg h]; exact ih.cons a

theorem filterP_eq_nil (p : α → Prop) [DecidablePred p] (l : List α)
    (h : ∀ x ∈ l, ¬ p x) : filterP p l = [] := by
  induction l with
  | nil => rfl
  | cons a as ih =>
    rw [filterP, if_neg (h a (List.mem_cons_self a as)),
      ih fun x hx => h x (List.mem_cons_of_mem a hx)]

/-- Filtering a strictly sorted list by a downward-closed bound keeps a
prefix. -/
theorem sorted_filterP_le_take (l : List ℤ) (hs : l.Pairwise (· < ·)) (c : ℤ) :
    ∃ k, filterP (fun e => e ≤ c) l = l.take k := by
  induction l with
  | nil => exact ⟨0, rfl⟩
  | cons a as ih =>
    rcases List.pairwise_cons.mp hs with ⟨ha, has⟩
    by_cases h : a ≤ c
    · obtain ⟨k, hk⟩ := ih has
      exact ⟨k + 1, by rw [filterP, if_pos h, hk]; rfl⟩
    · refine ⟨0, ?_⟩
      rw [filterP, if_neg h, filterP_eq_nil]
      · rfl
      · intro x hx hxc
        exact h (le_trans (le_of_lt (ha x hx)) hxc)

theorem argminFirstAux_desc (l : List ℤ) :
    ∀ (i bi : ℕ) (bv : ℤ), l.Pairwise (· > ·) → (∀ x ∈ l, x < bv) →
      argminFirstAux i bi bv l = if l.length = 0 then bi else i + l.length - 1 := by
  induction l with
  | nil => intro i bi bv _ _; rfl
  | cons x xs ih =>
    intro i bi bv hp hlt
    rcases List.pairwise_cons.mp hp with ⟨hx, hxs⟩
    rw [argminFirstAux, if_pos (hlt x (List.mem_cons_self x xs)),
      ih (i + 1) i x hxs hx]
    have hlen : (x :: xs).length = xs.length + 1 := rfl
    by_cases h0 : xs.length = 0
    · rw [if_pos h0, if_neg (by simp [h0])]
      omega
    · rw [if_neg h0, if_neg (by simp)]
      omega

/-- `np.argmin` of a strictly descending list is its last index. -/
theorem argminFirst_strict_anti (l : List ℤ) (hp : l.Pairwise (· > ·)) (hne : l ≠ []) :
    argminFirst l = l.length - 1 := by
  cases l with
  | nil => exact absurd rfl hne
  | cons x xs =>
    rcases List.pairwise_cons.mp hp with ⟨hx, hxs⟩
    rw [argminFirst, argminFirstAux_desc xs 1 0 x hxs hx]
    have hlen : (x :: xs).length = xs.length + 1 := rfl
    by_cases h0 : xs.length = 0
    · rw [if_pos h0]; omega
    · rw [if_neg h0]; omega

/-- In a list whose key column is strictly increasing, the first entry
matching a member's key is that member. -/
theorem head_filterP_key (key : ℤ × ℤ → ℤ) (l : List (ℤ × ℤ)) (f0 : ℤ × ℤ)
    (hp : l.Pairwise (fun p q => key p < key q)) (hmem : f0 ∈ l) :
    (filterP (fun f => key f = key f0) l).head? = some f0 := by
  induction l with
  | nil => exact absurd hmem (List.not_mem_nil f0)
  | cons a as ih =>
    rcases List.pairwise_cons.mp hp with ⟨ha, has⟩
    rcases List.mem_cons.mp hmem with h0 | h0
    · subst h0
      rw [filterP, if_pos rfl]
      rfl
    · have hne : key a ≠ key f0 := ne_of_lt (ha f0 h0)
      rw [filterP, if_neg hne]
      exact ih has h0

/-- The `left_stripe` lookup equals the nearest stripe ending at or
before the TAD start — the last of the (ordered) stripes with
`end <= x0` — given disjoint ordered well-formed stripes. -/
theorem leftStripe_eq_getLast (x0 : ℤ) (filters : List (ℤ × ℤ))
    (hwf : ∀ p ∈ filters, p.1 ≤ p.2)
    (hord : filters.Pairwise (fun p q => p.2 < q.1)) :
    leftStripe x0 filters = (filterP (fun f => f.2 ≤ x0) filters).getLast? := by
  have hsnd : filters.Pairwise (fun p q => p.2 < q.2) :=
    List.Pairwise.imp_of_mem
      (fun {p q} _ hq h => lt_of_lt_of_le h (hwf q hq)) hord
  have hends : (filters.map Prod.snd).Pairwise (· < ·) :=
    hsnd.map Prod.snd (fun {a b} h => h)
  have hc1 : filterP (fun e => 0 ≤ x0 - e) (filters.map Prod.snd) =
      (filterP (fun f => f.2 ≤ x0) filters).map Prod.snd := by
    rw [filterP_map]
    congr 1
    apply filterP_congr
    intro f _
    show (0 ≤ x0 - f.2) ↔ (f.2 ≤ x0)
    omega
  unfold leftStripe
  rw [hc1]
  by_cases hemp : ((filterP (fun f => f.2 ≤ x0) filters).map Prod.snd).isEmpty
  · rw [if_pos hemp]
    have hnil : filterP (fun f => f.2 ≤ x0) filters = [] := by
      have := List.isEmpty_iff.mp hemp
      exact List.map_eq_nil_iff.mp this
    rw [hnil]
    rfl
  · rw [if_neg hemp]
    set L := filterP (fun f => f.2 ≤ x0) filters with hLdef
    have hLsub : L.Sublist filters := filterP_sublist _ _
    have hLne : L ≠ [] := by
      intro h
      apply hemp
      rw [h]
      rfl
    have hLsnd : (L.map Prod.snd).Pairwise (· < ·) :=
      (hsnd.sublist hLsub).map Prod.snd (fun {a b} h => h)
    have hdesc : ((L.map Prod.snd).map (fun e => x0 - e)).Pairwise (· > ·) :=
      hLsnd.map (fun e => x0 - e) (fun {a b} h => by show x0 - a > x0 - b; omega)
    have hmapne : (L.map Prod.snd).map (fun e => x0 - e) ≠ [] := by
      intro h
      exact hLne (List.map_eq_nil_iff.mp (List.map_eq_nil_iff.mp h))
    have hargmin : argminFirst ((L.map Prod.snd).map (fun e => x0 - e)) =
        (L.map Prod.snd).length - 1 := by
      rw [argminFirst_strict_anti _ hdesc hmapne, List.length_map]
    rw [hargmin]
    -- the prefix property transfers indexing to the full end column
    obtain ⟨k, hk⟩ := sorted_filterP_le_take (filters.map Prod.snd) hends x0
    have hkL : L.map Prod.snd = (filters.map Prod.snd).take k := by
      rw [← hk, ← hc1]
      apply filterP_congr
      intro e _
      show (0 ≤ x0 - e) ↔ (e ≤ x0)
      omega
    set j := (L.map Prod.snd).length - 1 with hjdef
    have hjlt : j < (L.map Prod.snd).length := by
      have hlz : L.length ≠ 0 := fun h => hLne (List.length_eq_zero.mp h)
      rw [hjdef, List.length_map]
      omega
    have hjk : j < k := by
      have hlen := congrArg List.length hkL
      rw [List.length_take] at hlen
      omega
    have hgetD : (filters.map Prod.snd).getD j 0 = (L.map Prod.snd).getD j 0 := by
      rw [List.getD_eq_getElem?_getD, List.getD_eq_getElem?_getD, hkL,
        List.getElem?_take_of_lt hjk]
    rw [hgetD]
    -- the selected end is the last qualifying end
    obtain ⟨fstar, hfstar⟩ : ∃ f, L.getLast? = some f := by
      cases hLl : L.getLast? with
      | none => exact absurd (List.getLast?_eq_none_iff.mp hLl) hLne
      | some f => exact ⟨f, rfl⟩
    have hestar : (L.map Prod.snd).getD j 0 = fstar.2 := by
      rw [List.getD_eq_getElem?_getD, hjdef, List.length_map, ← List.length_map L Prod.snd,
        ← List.getLast?_eq_getElem?, List.getLast?_map, hfstar]
      rfl
    rw [hestar, hfstar]
    exact head_filterP_key Prod.snd filters fstar hsnd
      (List.Sublist.mem (List.mem_of_mem_getLast? hfstar) hLsub)

/-- The `right_stripe` lookup equals the nearest stripe starting at or
after the TAD end — the first of the (ordered) stripes with
`x1 <= start` — given disjoint ordered well-formed stripes. -/
theorem rightStripe_eq_head (x1 : ℤ) (filters : List (ℤ × ℤ))
    (hwf : ∀ p ∈ filters, p.1 ≤ p.2)
    (hord : filters.Pairwise (fun p q => p.2 < q.1)) :
    rightStripe x1 filters = (filterP (fun f => x1 ≤ f.1) filters).head? := by
  have hfst : filters.Pairwise (fun p q => p.1 < q.1) :=
    List.Pairwise.imp_of_mem
      (fun {p q} hp _ h => lt_of_le_of_lt (hwf p hp) h) hord
  have hc1 : filterP (fun s => 0 ≤ s - x1) (filters.map Prod.fst) =
      (filterP (fun f => x1 ≤ f.1) filters).map Prod.fst := by
    rw [filterP_map]
    congr 1
    apply filterP_congr
    intro f _
    show (0 ≤ f.1 - x1) ↔ (x1 ≤ f.1)
    omega
  unfold rightStripe
  rw [hc1]
  set L := filterP (fun f => x1 ≤ f.1) filters with hLdef
  cases hLh : L.head? with
  | none =>
    have hnil : L = [] := List.head?_eq_none_iff.mp hLh
    rw [hnil]
    rfl
  | some f0 =>
    have hmap : (L.map Prod.fst).head? = some f0.1 := by
      rw [List.head?_map, hLh]
      rfl
    rw [hmap]
    show (filterP (fun f => f.1 = f0.1) filters).head? = some f0
    have hf0L : f0 ∈ L := List.mem_of_mem_head? hLh
    have hf0 : f0 ∈ filters := List.Sublist.mem hf0L (filterP_sublist _ _)
    exact head_filterP_key Prod.fst filters f0 hfst hf0

/-- The claim-side left metric: nearest BadInterval ending at or before
the segment start contributes `log(gap)^2 * log(length)`, a missing
side the 1e10 sentinel. -/
noncomputable def specLeftMetric (x : ℤ × ℤ) (filters : List (ℤ × ℤ)) : ℝ :=
  match (filterP (fun f => f.2 ≤ x.1) filters).getLast? with
  | some f => Real.log ((x.1 - f.2 : ℤ) : ℝ) ^ 2 * Real.log ((x.2 - x.1 : ℤ) : ℝ)
  | none => 1e10

/-- The claim-side right metric: nearest BadInterval starting at or
after the segment end. -/
noncomputable def specRightMetric (x : ℤ × ℤ) (filters : List (ℤ × ℤ)) : ℝ :=
  match (filterP (fun f => x.2 ≤ f.1) filters).head? with
  | some f => Real.log ((f.1 - x.2 : ℤ) : ℝ) ^ 2 * Real.log ((x.2 - x.1 : ℤ) : ℝ)
  | none => 1e10

/-- C8: for density methods a non-fully-noisy segment's metric is the
minimum of the two side metrics computed against the nearest stripes
(left: largest end at or before the start; right: smallest start at or
after the end), each `log(gap)^2 * log(length)` with a missing side
contributing 1e10; for the insulation method a non-fully-noisy segment
always gets the constant 1. -/
theorem calc_noisy_metric_density_form :
    (∀ (x : ℤ × ℤ) (filters : List (ℤ × ℤ)) (method : Method) (resolution k : ℤ),
      (∀ p ∈ filters, p.1 ≤ p.2) →
      filters.Pairwise (fun p q => p.2 < q.1) →
      (method = Method.armatus ∨ method = Method.modularity) →
      ¬ whether_tad_noisy x filters method resolution k →
      calc_noisy_metric x filters method resolution k =
        min (specLeftMetric x filters) (specRightMetric x filters)) ∧
    (∀ (x : ℤ × ℤ) (filters : List (ℤ × ℤ)) (resolution k : ℤ),
      ¬ whether_tad_noisy x filters Method.insulation resolution k →
      calc_noisy_metric x filters Method.insulation resolution k = 1) := by
  constructor
  · intro x filters method resolution k hwf hord hm hnn
    have hne : method ≠ Method.insulation := by
      rcases hm with h | h <;> rw [h] <;> intro hc <;> exact absurd hc (by decide)
    unfold calc_noisy_metric
    rw [if_neg hnn, if_pos hne]
    rw [leftStripe_eq_getLast x.1 filters hwf hord,
      rightStripe_eq_head x.2 filters hwf hord]
    unfold specLeftMetric specRightMetric
    cases hL : (filterP (fun f => f.2 ≤ x.1) filters).getLast? with
    | none =>
      cases hR : (filterP (fun f => x.2 ≤ f.1) filters).head? with
      | none => rfl
      | some fr =>
        show min (1e10 : ℝ) (sideMetric (fr.1 - x.2) (x.2 - x.1) method) = _
        unfold sideMetric
        rw [if_neg hne]
    | some fl =>
      cases hR : (filterP (fun f => x.2 ≤ f.1) filters).head? with
      | none =>
        show min (sideMetric (x.1 - fl.2) (x.2 - x.1) method) (1e10 : ℝ) = _
        unfold sideMetric
        rw [if_neg hne]
      | some fr =>
        show min (sideMetric (x.1 - fl.2) (x.2 - x.1) method)
          (sideMetric (fr.1 - x.2) (x.2 - x.1) method) = _
        unfold sideMetric
        rw [if_neg hne, if_neg hne]
  · intro x filters resolution k hnn
    unfold calc_noisy_metric
    rw [if_neg hnn, if_neg (by simp)]

/-- C8 witness: the density form at a concrete clean segment between
two stripes, and the insulation constant at a concrete clean segment. -/
theorem calc_noisy_metric_density_form_witness :
    ((∀ p ∈ [((8 : ℤ), (12 : ℤ)), (30, 35)], p.1 ≤ p.2) ∧
      ([((8 : ℤ), (12 : ℤ)), (30, 35)] : List (ℤ × ℤ)).Pairwise (fun p q => p.2 < q.1) ∧
      ¬ whether_tad_noisy (17, 20) [(8, 12), (30, 35)] Method.armatus 0 0 ∧
      calc_noisy_metric (17, 20) [(8, 12), (30, 35)] Method.armatus 0 0 =
        min (specLeftMetric (17, 20) [(8, 12), (30, 35)])
          (specRightMetric (17, 20) [(8, 12), (30, 35)])) ∧
    (¬ whether_tad_noisy (0, 3) [(8, 12)] Method.insulation 1 0 ∧
      calc_noisy_metric (0, 3) [(8, 12)] Method.insulation 1 0 = 1) :=
  ⟨⟨by decide, by decide, by decide,
      calc_noisy_metric_density_form.1 (17, 20) [(8, 12), (30, 35)] Method.armatus 0 0
        (by decide) (by decide) (Or.inl rfl) (by decide)⟩,
    ⟨by decide,
      calc_noisy_metric_density_form.2 (0, 3) [(8, 12)] 1 0 (by decide)⟩⟩

/-! ## Claim C3 -/

/-- The claim-side sign-change test: the two consecutive deviations
from the target have opposite (non-strict) signs. -/
def specSignChange (means : List ℚ) (t : ℚ) (i : ℕ) : Prop :=
  (means.getD i 0 - t ≤ 0 ∧ 0 ≤ means.getD (i - 1) 0 - t) ∨
  (0 ≤ means.getD i 0 - t ∧ means.getD (i - 1) 0 - t ≤ 0)

instance (means : List ℚ) (t : ℚ) (i : ℕ) : Decidable (specSignChange means t i) := by
  unfold specSignChange; infer_instance

/-- The claim-side candidate list, in scan order: one candidate per
sign change (the bracketing grid point whose mean size is closer to the
target, with its coverage), then the single grid point globally closest
to the target. -/
def specCandidates (grid means covs : List ℚ) (t : ℚ) : List (ℚ × ℚ) :=
  ((List.range' 1 (means.length - 1)).filterMap (fun i =>
    if specSignChange means t i then some (crossingPick grid means covs t i) else none)) ++
  [(grid.getD (closestIdx means t) 0, covs.getD (closestIdx means t) 0)]

theorem crossingAt_iff_specSignChange (means : List ℚ) (t : ℚ) (i : ℕ) :
    crossingAt means t i ↔ specSignChange means t i := by
  unfold crossingAt specSignChange
  rw [mul_nonpos_iff]
  tauto

theorem dictInsert_ne_nil (d : List (ℚ × ℚ)) (k v : ℚ) : dictInsert d k v ≠ [] := by
  cases d with
  | nil => simp [dictInsert]
  | cons p rest =>
    obtain ⟨k0, v0⟩ := p
    unfold dictInsert
    split_ifs <;> simp

/-- Dict assignment with a value consistent with the existing binding
behaves like plain membership extension. -/
theorem mem_dictInsert (d : List (ℚ × ℚ)) (k v : ℚ)
    (hcons : ∀ p ∈ d, p.1 = k → p.2 = v) :
    ∀ kv, kv ∈ dictInsert d k v ↔ kv ∈ d ∨ kv = (k, v) := by
  induction d with
  | nil =>
    intro kv
    constructor
    · intro h; exact Or.inr (List.mem_singleton.mp h)
    · rintro (h | h)
      · exact absurd h (List.not_mem_nil kv)
      · exact h ▸ List.mem_cons_self _ _
  | cons p rest ih =>
    obtain ⟨k0, v0⟩ := p
    intro kv
    by_cases hk : k0 = k
    · rw [show dictInsert ((k0, v0) :: rest) k v = (k, v) :: rest from by
        unfold dictInsert; rw [if_pos hk]]
      subst hk
      constructor
      · intro h
        rcases List.mem_cons.mp h with h0 | h0
        · exact Or.inr h0
        · exact Or.inl (List.mem_cons_of_mem _ h0)
      · rintro (h0 | h0)
        · rcases List.mem_cons.mp h0 with h1 | h1
          · have hv : v0 = v := hcons (k0, v0) (List.mem_cons_self _ _) rfl
            rw [h1, hv]
            exact List.mem_cons_self _ _
          · exact List.mem_cons_of_mem _ h1
        · exact h0 ▸ List.mem_cons_self _ _
    · rw [show dictInsert ((k0, v0) :: rest) k v = (k0, v0) :: dictInsert rest k v from by
        rw [dictInsert, if_neg hk]]
      have ihr := ih (fun q hq hq1 => hcons q (List.mem_cons_of_mem _ hq) hq1) kv
      constructor
      · intro h
        rcases List.mem_cons.mp h with h0 | h0
        · exact Or.inl (h0 ▸ List.mem_cons_self _ _)
        · rcases ihr.mp h0 with h1 | h1
          · exact Or.inl (List.mem_cons_of_mem _ h1)
          · exact Or.inr h1
      · rintro (h0 | h0)
        · rcases List.mem_cons.mp h0 with h1 | h1
          · exact h1 ▸ List.mem_cons_self _ _
          · exact List.mem_cons_of_mem _ (ihr.mpr (Or.inl h1))
        · exact List.mem_cons_of_mem _ (ihr.mpr (Or.inr h0))

/-- Folding consistent key-value pairs into an ordered dict preserves
membership. -/
theorem mem_foldl_dictInsert (L : List (ℚ × ℚ)) :
    ∀ (d : List (ℚ × ℚ)),
      (∀ p q : ℚ × ℚ, (p ∈ d ∨ p ∈ L) → (q ∈ d ∨ q ∈ L) → p.1 = q.1 → p.2 = q.2) →
      ∀ kv, kv ∈ L.foldl (fun d p => dictInsert d p.1 p.2) d ↔ kv ∈ d ∨ kv ∈ L := by
  induction L with
  | nil => intro d _ kv; simp
  | cons p rest ih =>
    intro d hcons kv
    rw [List.foldl_cons]
    have hc1 : ∀ q ∈ d, q.1 = p.1 → q.2 = p.2 := fun q hq hq1 =>
      hcons q p (Or.inl hq) (Or.inr (List.mem_cons_self _ _)) hq1
    have hmem := mem_dictInsert d p.1 p.2 hc1
    have hlift : ∀ a : ℚ × ℚ, (a ∈ dictInsert d p.1 p.2 ∨ a ∈ rest) →
        (a ∈ d ∨ a ∈ p :: rest) := by
      intro a ha
      rcases ha with h | h
      · rcases (hmem a).mp h with h1 | h1
        · exact Or.inl h1
        · exact Or.inr (by rw [h1, Prod.mk.eta]; exact List.mem_cons_self _ _)
      · exact Or.inr (List.mem_cons_of_mem _ h)
    have hcons2 : ∀ a b : ℚ × ℚ, (a ∈ dictInsert d p.1 p.2 ∨ a ∈ rest) →
        (b ∈ dictInsert d p.1 p.2 ∨ b ∈ rest) → a.1 = b.1 → a.2 = b.2 :=
      fun a b ha hb hab => hcons a b (hlift a ha) (hlift b hb) hab
    rw [ih (dictInsert d p.1 p.2) hcons2 kv, hmem kv, List.mem_cons, Prod.mk.eta]
    tauto

theorem argminFirstAux_bound [LinearOrder α] (l : List α) :
    ∀ (i bi : ℕ) (bv : α), argminFirstAux i bi bv l = bi ∨
      (i ≤ argminFirstAux i bi bv l ∧ argminFirstAux i bi bv l < i + l.length) := by
  induction l with
  | nil => intro i bi bv; exact Or.inl rfl
  | cons x xs ih =>
    intro i bi bv
    have hlen : (x :: xs).length = xs.length + 1 := rfl
    rw [argminFirstAux]
    by_cases h : x < bv
    · rw [if_pos h]
      rcases ih (i + 1) i x with h1 | h1
      · right; rw [h1]; omega
      · right; omega
    · rw [if_neg h]
      rcases ih (i + 1) bi bv with h1 | h1
      · exact Or.inl h1
      · right; omega

theorem argminFirst_lt_length [LinearOrder α] (l : List α) (hne : l ≠ []) :
    argminFirst l < l.length := by
  cases l with
  | nil => exact absurd rfl hne
  | cons x xs =>
    have hlen : (x :: xs).length = xs.length + 1 := rfl
    rw [argminFirst]
    rcases argminFirstAux_bound xs 1 0 x with h | h
    · rw [h]; omega
    · omega

/-- Every spec candidate is the (gamma, coverage) pair of some grid
position. -/
theorem specCandidates_shape (grid means covs : List ℚ) (t : ℚ)
    (hn : 1 ≤ means.length) :
    ∀ kv ∈ specCandidates grid means covs t,
      ∃ i, i < means.length ∧ kv = (grid.getD i 0, covs.getD i 0) := by
  intro kv hkv
  unfold specCandidates at hkv
  rcases List.mem_append.mp hkv with h | h
  · obtain ⟨i, hi, hif⟩ := List.mem_filterMap.mp h
    have hirange := List.mem_range'_1.mp hi
    by_cases hcr : specSignChange means t i
    · rw [if_pos hcr] at hif
      have heq := Option.some.inj hif
      unfold crossingPick at heq
      by_cases habs : |means.getD i 0 - t| ≤ |means.getD (i - 1) 0 - t|
      · rw [if_pos habs] at heq
        exact ⟨i, by omega, heq.symm⟩
      · rw [if_neg habs] at heq
        exact ⟨i - 1, by omega, heq.symm⟩
    · rw [if_neg hcr] at hif
      exact absurd hif (by simp)
  · rcases List.mem_singleton.mp h with rfl
    refine ⟨closestIdx means t, ?_, rfl⟩
    unfold closestIdx
    have hne : means.map (fun x => |x - t|) ≠ [] := by
      intro hnil
      have := List.map_eq_nil_iff.mp hnil
      rw [this] at hn
      exact absurd hn (by simp)
    have := argminFirst_lt_length (means.map (fun x => |x - t|)) hne
    rw [List.length_map] at this
    exact this

/-- Distinct grid values make the candidate list key-consistent: the
gamma determines the coverage. -/
theorem specCandidates_consistent (grid means covs : List ℚ) (t : ℚ)
    (hg : grid.length = means.length) (hn : 1 ≤ means.length)
    (hnodup : grid.Nodup) :
    ∀ p q : ℚ × ℚ, p ∈ specCandidates grid means covs t →
      q ∈ specCandidates grid means covs t → p.1 = q.1 → p.2 = q.2 := by
  intro p q hp hq hpq
  obtain ⟨i, hi, hpe⟩ := specCandidates_shape grid means covs t hn p hp
  obtain ⟨j, hj, hqe⟩ := specCandidates_shape grid means covs t hn q hq
  have hi' : i < grid.length := by omega
  have hj' : j < grid.length := by omega
  have hp1 : p.1 = grid.getD i 0 := by rw [hpe]
  have hq1 : q.1 = grid.getD j 0 := by rw [hqe]
  have hgeq : grid[i] = grid[j] := by
    rw [← List.getD_eq_getElem grid 0 hi', ← List.getD_eq_getElem grid 0 hj',
      ← hp1, ← hq1, hpq]
  have hij : i = j := (List.Nodup.getElem_inj_iff hnodup).mp hgeq
  subst hij
  rw [hpe, hqe]

/-- The conditional-insert scan is the fold of the filtered candidate
stream. -/
theorem foldl_crossing_filterMap (grid means covs : List ℚ) (t : ℚ) (idxs : List ℕ) :
    ∀ d : List (ℚ × ℚ),
      idxs.foldl (fun d i => if crossingAt means t i then
        dictInsert d (crossingPick grid means covs t i).1
          (crossingPick grid means covs t i).2 else d) d =
      (idxs.filterMap (fun i => if crossingAt means t i then
        some (crossingPick grid means covs t i) else none)).foldl
        (fun d p => dictInsert d p.1 p.2) d := by
  induction idxs with
  | nil => intro d; rfl
  | cons i rest ih =>
    intro d
    rw [List.foldl_cons, List.filterMap_cons]
    by_cases h : crossingAt means t i
    · rw [if_pos h, if_pos h, ih, List.foldl_cons]
    · rw [if_neg h, if_neg h, ih]

/-- `local_optimas` equals the ordered-dict fold of the spec candidate
list. -/
theorem localOptimas_eq_foldl (grid means covs : List ℚ) (t : ℚ) :
    localOptimas grid means covs t =
      (specCandidates grid means covs t).foldl (fun d p => dictInsert d p.1 p.2) [] := by
  unfold localOptimas specCandidates
  rw [foldl_crossing_filterMap, List.foldl_append,
    List.filterMap_congr (fun i _ =>
      if_congr (crossingAt_iff_specSignChange means t i) rfl rfl)]
  rfl

/-- The fold with `pickMax` returns the first list entry attaining the
maximal value. -/
theorem foldl_pickMax_spec (xs : List (ℚ × ℚ)) :
    ∀ acc : ℚ × ℚ, ∃ pre post,
      acc :: xs = pre ++ (xs.foldl pickMax acc) :: post ∧
      (∀ q ∈ pre, q.2 < (xs.foldl pickMax acc).2) ∧
      (∀ q ∈ acc :: xs, q.2 ≤ (xs.foldl pickMax acc).2) := by
  induction xs with
  | nil =>
    intro acc
    refine ⟨[], [], rfl, by simp, ?_⟩
    intro q hq
    rcases List.mem_singleton.mp hq with rfl
    exact le_rfl
  | cons x xs ih =>
    intro acc
    rw [List.foldl_cons]
    by_cases h : acc.2 < x.2
    · have hpm : pickMax acc x = x := by unfold pickMax; rw [if_pos h]
      rw [hpm]
      obtain ⟨pre, post, heq, hpre, hall⟩ := ih x
      refine ⟨acc :: pre, post, ?_, ?_, ?_⟩
      · rw [List.cons_append, ← heq]
      · intro q hq
        rcases List.mem_cons.mp hq with h0 | hq0
        · have hx := hall x (List.mem_cons_self _ _)
          rw [h0]
          exact lt_of_lt_of_le h hx
        · exact hpre q hq0
      · intro q hq
        rcases List.mem_cons.mp hq with h0 | hq0
        · have hx := hall x (List.mem_cons_self _ _)
          rw [h0]
          exact le_trans (le_of_lt h) hx
        · exact hall q hq0
    · have hpm : pickMax acc x = acc := by unfold pickMax; rw [if_neg h]
      rw [hpm]
      obtain ⟨pre, post, heq, hpre, hall⟩ := ih acc
      cases pre with
      | nil =>
        rw [List.nil_append] at heq
        injection heq with h1 h2
        refine ⟨[], x :: post, ?_, by simp, ?_⟩
        · rw [List.nil_append, ← h1, ← h2]
        · intro q hq
          rcases List.mem_cons.mp hq with h0 | hq0
          · rw [h0, ← h1]
          · rcases List.mem_cons.mp hq0 with h0 | hq1
            · rw [h0, ← h1]
              exact le_of_not_lt h
            · exact hall q (List.mem_cons_of_mem _ hq1)
      | cons p0 pre0 =>
        rw [List.cons_append] at heq
        injection heq with h1 h2
        refine ⟨p0 :: x :: pre0, post, ?_, ?_, ?_⟩
        · rw [List.cons_append, List.cons_append, ← h2, ← h1]
        · intro q hq
          rcases List.mem_cons.mp hq with h0 | hq0
          · rw [h0]
            exact hpre p0 (List.mem_cons_self _ _)
          · rcases List.mem_cons.mp hq0 with h0 | hq1
            · have hp0 := hpre p0 (List.mem_cons_self _ _)
              have hxa : x.2 ≤ acc.2 := le_of_not_lt h
              rw [h0]
              rw [h1] at hxa
              exact lt_of_le_of_lt hxa hp0
            · exact hpre q (List.mem_cons_of_mem _ hq1)
        · intro q hq
          rcases List.mem_cons.mp hq with h0 | hq0
          · rw [h0]
            exact hall acc (List.mem_cons_self _ _)
          · rcases List.mem_cons.mp hq0 with h0 | hq1
            · have hxa : x.2 ≤ acc.2 := le_of_not_lt h
              rw [h0]
              exact le_trans hxa (hall acc (List.mem_cons_self _ _))
            · exact hall q (List.mem_cons_of_mem _ hq1)

/-- C3: over a duplicate-free grid, the registered candidate set of
`find_global_optima` is exactly the claim's: one candidate per
(non-strict) sign change of `mean - target` between consecutive grid
points — the bracketing point whose mean is numerically closer to the
target, with its coverage — plus the grid point globally closest to the
target; and the returned optimum is the first candidate, in insertion
order, attaining the maximum coverage. -/
theorem find_global_optima_spec :
    ∀ (grid means covs : List ℚ) (expected resolution : ℚ),
      grid.length = means.length → covs.length = means.length →
      1 ≤ means.length → grid.Nodup →
      ((∀ kv : ℚ × ℚ, kv ∈ localOptimas grid means covs (expected / resolution) ↔
          kv ∈ specCandidates grid means covs (expected / resolution)) ∧
        ∃ pre post cov,
          localOptimas grid means covs (expected / resolution) =
            pre ++ (find_global_optima grid means covs expected resolution, cov) :: post ∧
          (∀ q ∈ pre, q.2 < cov) ∧
          (∀ q ∈ localOptimas grid means covs (expected / resolution), q.2 ≤ cov)) := by
  intro grid means covs expected resolution hg hc hn hnodup
  set t := expected / resolution with ht
  have hcons := specCandidates_consistent grid means covs t hg hn hnodup
  have hmem : ∀ kv : ℚ × ℚ, kv ∈ localOptimas grid means covs t ↔
      kv ∈ specCandidates grid means covs t := by
    intro kv
    rw [localOptimas_eq_foldl]
    have hfold := mem_foldl_dictInsert (specCandidates grid means covs t) []
      (by
        intro p q hp hq hpq
        rcases hp with hp | hp
        · exact absurd hp (List.not_mem_nil p)
        · rcases hq with hq | hq
          · exact absurd hq (List.not_mem_nil q)
          · exact hcons p q hp hq hpq) kv
    rw [hfold]
    simp
  refine ⟨hmem, ?_⟩
  cases hxs : localOptimas grid means covs t with
  | nil =>
    exfalso
    unfold localOptimas at hxs
    exact dictInsert_ne_nil _ _ _ hxs
  | cons x xs =>
    have hfm : firstMax (localOptimas grid means covs t) = some (xs.foldl pickMax x) := by
      rw [hxs]
      rfl
    have hopt : find_global_optima grid means covs expected resolution =
        (xs.foldl pickMax x).1 := by
      unfold find_global_optima
      rw [← ht, hfm]
    obtain ⟨pre, post, heq, hpre, hall⟩ := foldl_pickMax_spec xs x
    refine ⟨pre, post, (xs.foldl pickMax x).2, ?_, hpre, ?_⟩
    · rw [hopt, Prod.mk.eta]
      exact heq
    · intro q hq
      exact hall q hq

/-- C3 witness: the characterization at a concrete three-point grid
with one crossing. -/
theorem find_global_optima_spec_witness :
    (([0, 1, 2] : List ℚ).length = ([10, 4, 1] : List ℚ).length ∧
      ([5, 7, 3] : List ℚ).length = ([10, 4, 1] : List ℚ).length ∧
      1 ≤ ([10, 4, 1] : List ℚ).length ∧ ([0, 1, 2] : List ℚ).Nodup) ∧
    ((∀ kv : ℚ × ℚ,
        kv ∈ localOptimas [0, 1, 2] [10, 4, 1] [5, 7, 3] ((3 : ℚ) / 1) ↔
        kv ∈ specCandidates [0, 1, 2] [10, 4, 1] [5, 7, 3] ((3 : ℚ) / 1)) ∧
      ∃ pre post cov,
        localOptimas [0, 1, 2] [10, 4, 1] [5, 7, 3] ((3 : ℚ) / 1) =
          pre ++ (find_global_optima [0, 1, 2] [10, 4, 1] [5, 7, 3] 3 1, cov) :: post ∧
        (∀ q ∈ pre, q.2 < cov) ∧
        (∀ q ∈ localOptimas [0, 1, 2] [10, 4, 1] [5, 7, 3] ((3 : ℚ) / 1), q.2 ≤ cov)) :=
  ⟨⟨by decide, by decide, by decide, by decide⟩,
    find_global_optima_spec [0, 1, 2] [10, 4, 1] [5, 7, 3] 3 1
      (by decide) (by decide) (by decide) (by decide)⟩

end Hichew
